import Mathlib

/-!
# A verification development for the `CID` class of `cid.py`

This file gives a shallow embedding of `src/cid.py` (a causal-influence-diagram
layer on top of pgmpy's `BayesianModel`) and proves properties of it.

Modelling conventions:

* Python methods that can raise become functions into an error/writer monad `M`:
  a result together with the list of warning messages emitted (the
  `logging.warning` / `warnings.warn` calls), or an error (`ValueError`,
  `AttributeError`, ...).  Methods that mutate `self` are embedded as functions
  returning the updated `CID`; `solve` and `check_sufficient_recall`, which
  never mutate `self`, additionally return their final `self` so that frame
  properties are statable.
* NumPy floats are modelled as `PVal := Option ℚ`, where `none` plays the role
  of IEEE `NaN` (it propagates through arithmetic, compares unequal to
  everything, and propagates through `np.max`).  Division by zero is also
  modelled as `none`.
* External collaborators are abstracted at their interface, as in the spec:
  the exact-inference engine (`BeliefPropagation(...).query`) is a parameter
  `Oracle`, and the d-separation test `is_active_trail` is a parameter
  `ActiveTrail`.  Graph bookkeeping that `cid.py` relies on
  (`add_edge` with its cycle check, `topological_sort`, `_get_ancestors_of`,
  `get_parents`, node/edge storage in insertion order) is embedded concretely.
* `cpd.py` (`NullCPD`, `FunctionCPD`) is part of this repository but absent
  from `src/`; its methods (`initializeTabularCPD`, `convertToTabularCPD`) are
  modelled from the spec where needed, and marked as such.
-/

/-- Python exception kinds that `cid.py` can surface. -/
inductive Err where
  | valueError
  | attributeError
  | indexError
  | inferenceError
deriving DecidableEq, Repr

/-- The effect monad of the embedding: accumulated warning messages plus a
result or an error.  Warnings emitted before an exception are kept. -/
abbrev M (α : Type) : Type := List String × Except Err α

def M.pure {α : Type} (a : α) : M α := ([], Except.ok a)

def M.throw {α : Type} (e : Err) : M α := ([], Except.error e)

def M.warn (s : String) : M Unit := ([s], Except.ok ())

def M.bind {α β : Type} (x : M α) (f : α → M β) : M β :=
  match x with
  | (w, Except.error e) => (w, Except.error e)
  | (w, Except.ok a) =>
    let y := f a
    (w ++ y.1, y.2)

/-- Effectful map over a list (Python `for` loop building a list). -/
def M.mapList {α β : Type} (f : α → M β) : List α → M (List β)
  | [] => M.pure []
  | x :: xs =>
    M.bind (f x) fun y =>
    M.bind (M.mapList f xs) fun ys =>
    M.pure (y :: ys)

/-- Effectful fold over a list (Python `for` loop updating state). -/
def M.foldList {σ α : Type} (f : σ → α → M σ) (init : σ) : List α → M σ
  | [] => M.pure init
  | x :: xs => M.bind (f init x) fun st => M.foldList f st xs

@[simp] theorem M.bind_pure {α β : Type} (a : α) (f : α → M β) :
    M.bind (M.pure a) f = f a := by
  simp [M.bind, M.pure]

@[simp] theorem M.bind_throw {α β : Type} (e : Err) (f : α → M β) :
    M.bind (M.throw e) f = M.throw e := by
  simp [M.bind, M.throw]

theorem M.bind_eq_ok {α β : Type} {x : M α} {f : α → M β} {w : List String} {b : β}
    (h : M.bind x f = (w, Except.ok b)) :
    ∃ w₁ a w₂, x = (w₁, Except.ok a) ∧ f a = (w₂, Except.ok b) ∧ w = w₁ ++ w₂ := by
  match x with
  | (w₁, Except.error e) => simp [M.bind] at h
  | (w₁, Except.ok a) =>
    simp only [M.bind] at h
    refine ⟨w₁, a, (f a).1, rfl, ?_, ?_⟩
    · have h2 := congrArg Prod.snd h
      simp at h2
      exact Prod.ext rfl h2
    · have h1 := congrArg Prod.fst h
      simp at h1
      exact h1.symm

theorem M.bind_assoc {α β γ : Type} (x : M α) (f : α → M β) (g : β → M γ) :
    M.bind (M.bind x f) g = M.bind x (fun a => M.bind (f a) g) := by
  match x with
  | (w, Except.error e) => simp [M.bind]
  | (w, Except.ok a) =>
    simp only [M.bind]
    match f a with
    | (w2, Except.error e) => simp [M.bind]
    | (w2, Except.ok b) => simp [M.bind, List.append_assoc]

/-- NumPy float values: `none` models IEEE `NaN`. -/
abbrev PVal : Type := Option ℚ

def pAdd : PVal → PVal → PVal
  | some a, some b => some (a + b)
  | _, _ => none

def pMul : PVal → PVal → PVal
  | some a, some b => some (a * b)
  | _, _ => none

/-- Division; division by zero is modelled as NaN (`none`). -/
def pDiv : PVal → PVal → PVal
  | some a, some b => if b = 0 then none else some (a / b)
  | _, _ => none

def pSum (l : List PVal) : PVal := l.foldl pAdd (some 0)

def pMax2 : PVal → PVal → PVal
  | some a, some b => some (max a b)
  | _, _ => none

/-- `np.max` over a 1-d array: NaN propagates.  (NumPy raises on an empty
array; that case is unreachable in the places this is used with positive
cardinality, and is given the junk value `none`.) -/
def pMaxList : List PVal → PVal
  | [] => none
  | x :: xs => xs.foldl pMax2 x

/-- IEEE equality test: NaN compares unequal to everything. -/
def pEqb : PVal → PVal → Bool
  | some a, some b => decide (a = b)
  | _, _ => false

/-- pgmpy `state_names`: a map from variable to its (numeric) state values. -/
abbrev StateNames : Type := List (String × List ℚ)

def snLookup (sn : StateNames) (v : String) : List ℚ :=
  match sn.find? (fun p => p.1 == v) with
  | some p => p.2
  | none => []

/-- The tabular payload of a CPD: the 2-d probability table (variable states
are the rows, parent contexts the columns, the first parent varying slowest)
together with the evidence (parent) list and its cardinalities. -/
structure TabData where
  values : List (List PVal)
  evidence : List String
  evidence_card : List ℕ
deriving DecidableEq, Repr

/-- The distribution variants attached to CID nodes:
`tabular` is pgmpy's `TabularCPD`; `null` is `cpd.py`'s `NullCPD`
(placeholder; its table is `none` until `initializeTabularCPD` materializes
it); `func` is `cpd.py`'s `FunctionCPD` (a pure function of the parent state
values; cardinality, state names and table are computed at initialization).
The externally supplied `ContinuousFactor` variant is passed through opaquely
by `cid.py` and is not involved in any property here, so it is omitted. -/
inductive CPD where
  | tabular (var : String) (variable_card : ℕ) (state_names : StateNames) (t : TabData)
  | null (var : String) (variable_card : ℕ) (state_names : StateNames) (t : Option TabData)
  | func (var : String) (fn : List ℚ → ℚ) (evidence : List String)
      (t : Option (ℕ × StateNames × TabData))

def CPD.var : CPD → String
  | CPD.tabular v _ _ _ => v
  | CPD.null v _ _ _ => v
  | CPD.func v _ _ _ => v

def CPD.variable_card : CPD → ℕ
  | CPD.tabular _ c _ _ => c
  | CPD.null _ c _ _ => c
  | CPD.func _ _ _ t => (t.map (fun p => p.1)).getD 0

def CPD.state_names : CPD → StateNames
  | CPD.tabular _ _ sn _ => sn
  | CPD.null _ _ sn _ => sn
  | CPD.func _ _ _ t => (t.map (fun p => p.2.1)).getD []

/-- `cpd.scope()`: the variable together with its evidence. -/
def CPD.scope : CPD → List String
  | CPD.tabular v _ _ t => v :: t.evidence
  | CPD.null v _ _ t => v :: (t.map TabData.evidence).getD []
  | CPD.func v _ ev _ => v :: ev

/-- `cpd.copy()`; deep copies are identities in the pure embedding. -/
def CPD.copy (c : CPD) : CPD := c

def CPD.isTabular : CPD → Bool
  | CPD.tabular _ _ _ _ => true
  | _ => false

/-- Observation of the materialized probability table (for stating concrete
facts without needing decidable equality of `CPD`, which the `func` variant
precludes). -/
def CPD.valuesOf : CPD → List (List PVal)
  | CPD.tabular _ _ _ t => t.values
  | CPD.null _ _ _ (some t) => t.values
  | CPD.null _ _ _ none => []
  | CPD.func _ _ _ (some p) => p.2.2.values
  | CPD.func _ _ _ none => []

/-- Conditioning evidence / trial assignment: variable to state index.
(The source uses state indices here, as its own TODO remarks.) -/
abbrev Context : Type := List (String × ℕ)

/-- Python `context[decision] = act` on a copy of the dict. -/
def ctxSet (c : Context) (k : String) (v : ℕ) : Context :=
  (c.filter (fun p => p.1 ≠ k)) ++ [(k, v)]

def ctxRepr (c : Context) : String :=
  String.intercalate ", " (c.map (fun p => p.1 ++ ":" ++ toString p.2))

/-- Cartesian product of lists, first coordinate varying slowest
(row-major, the order of `itertools.product` and `np.ndenumerate`). -/
def cartProd {α : Type} : List (List α) → List (List α)
  | [] => [[]]
  | l :: ls => l.flatMap (fun x => (cartProd ls).map (fun rest => x :: rest))

/-- All joint index tuples over the given cardinalities. -/
def allIdx (cards : List ℕ) : List (List ℕ) :=
  cartProd (cards.map List.range)

/-- All ordered pairs `(x, y)` of a list with `x` strictly before `y`. -/
def orderedPairs {α : Type} : List α → List (α × α)
  | [] => []
  | x :: xs => xs.map (fun y => (x, y)) ++ orderedPairs xs

/-- The data of a `CID(BayesianModel)` object: the graph (nodes and directed
edges in insertion order, as networkx stores them), the two role lists and
the attached CPDs. -/
structure CID where
  nodes : List String
  edges : List (String × String)
  decision_nodes : List String
  utility_nodes : List String
  cpds : List CPD

/-- One step of the predecessor closure. -/
def ancStep (edges : List (String × String)) (s : List String) : List String :=
  (s ++ edges.filterMap (fun e => if e.2 ∈ s then some e.1 else none)).dedup

def ancestorsAux (edges : List (String × String)) : ℕ → List String → List String
  | 0, s => s
  | n + 1, s => ancestorsAux edges n (ancStep edges s)

/-- pgmpy `_get_ancestors_of(node)`: ancestors of the node, including the node
itself (computed as a fixed point of the predecessor step; `edges.length + 1`
iterations always reach it). -/
def CID.get_ancestors_of (cid : CID) (u : String) : List String :=
  ancestorsAux cid.edges (cid.edges.length + 1) [u]

/-- One step of the successor closure. -/
def descStep (edges : List (String × String)) (s : List String) : List String :=
  (s ++ edges.filterMap (fun e => if e.1 ∈ s then some e.2 else none)).dedup

def descendantsAux (edges : List (String × String)) : ℕ → List String → List String
  | 0, s => s
  | n + 1, s => descendantsAux edges n (descStep edges s)

/-- Nodes reachable from `v` by directed edges (including `v` itself);
`nx.has_path v u` is `u ∈ reachableFrom edges v`. -/
def reachableFrom (edges : List (String × String)) (v : String) : List String :=
  descendantsAux edges (edges.length + 1) [v]

/-- pgmpy `BayesianModel.add_edge(u, v)`: raises on a self loop or when the
edge would close a directed cycle; otherwise inserts the (possibly new)
endpoints and the edge in insertion order, ignoring a duplicate edge. -/
def CID.add_edge (cid : CID) (u v : String) : M CID :=
  if u = v ∨ (u ∈ cid.nodes ∧ v ∈ cid.nodes ∧ u ∈ reachableFrom cid.edges v) then
    M.throw Err.valueError
  else
    let ns := cid.nodes ++ (if u ∈ cid.nodes then [] else [u])
    let ns := ns ++ (if v ∈ ns then [] else [v])
    M.pure { cid with
      nodes := ns
      edges := if (u, v) ∈ cid.edges then cid.edges else cid.edges ++ [(u, v)] }

/-- `CID(ebunch, decision_nodes, utility_nodes)`: the graph is built by adding
the edges in order (`BayesianModel.__init__` with `ebunch`). -/
def CID.make (ebunch : List (String × String)) (decision_nodes utility_nodes : List String) :
    M CID :=
  M.foldList (fun c e => c.add_edge e.1 e.2)
    { nodes := [], edges := [], decision_nodes := decision_nodes,
      utility_nodes := utility_nodes, cpds := [] } ebunch

/-- `get_parents(node)`: predecessors, in edge insertion order. -/
def CID.get_parents (cid : CID) (d : String) : List String :=
  cid.edges.filterMap (fun e => if e.2 = d then some e.1 else none)

/-- Layered Kahn topological sort: repeatedly emit, in insertion order, the
remaining nodes with no remaining predecessor.  A deterministic stand-in for
`nx.topological_sort` (whose tie-breaking among ready nodes is a library
detail); on a graph the construction invariant keeps acyclic it is a valid
complete topological order. -/
def topoSortAux (edges : List (String × String)) : ℕ → List String → List String
  | 0, _ => []
  | n + 1, rem =>
    let ready := rem.filter (fun v => ¬ ∃ e ∈ edges, e.2 = v ∧ e.1 ∈ rem)
    if ready.isEmpty then []
    else ready ++ topoSortAux edges n (rem.filter (fun v => v ∉ ready))

def CID.topological_sort (cid : CID) : List String :=
  topoSortAux cid.edges (cid.nodes.length + 1) cid.nodes

/-- `_get_valid_order(nodes)`. -/
def CID.get_valid_order (cid : CID) (nodes : List String) : List String :=
  (cid.topological_sort).filter (fun i => i ∈ nodes)

/-- pgmpy `get_cpds(node)`: the attached CPD for the node, or `None`. -/
def CID.get_cpds (cid : CID) (node : String) : Option CPD :=
  cid.cpds.find? (fun c => c.var == node)

/-- pgmpy `get_cardinality(node)` reads `get_cpds(node).variable_card` and
raises `AttributeError` when no CPD is attached. -/
def CID.get_cardinalityM (cid : CID) (node : String) : M ℕ :=
  match cid.get_cpds node with
  | none => M.throw Err.attributeError
  | some c => M.pure c.variable_card

/-- Replace-or-append step of `add_cpds`' first loop: the first existing CPD
with the same variable is replaced in place (returning `true`), otherwise the
new CPD is appended (returning `false`). -/
def replaceCpd : List CPD → CPD → List CPD × Bool
  | [], c => ([c], false)
  | x :: xs, c =>
    if x.var = c.var then (c :: xs, true)
    else
      let r := replaceCpd xs c
      (x :: r.1, r.2)

/-- Modelled from the spec: `NullCPD.initializeTabularCPD` and
`FunctionCPD.initializeTabularCPD` live in `cpd.py`, which is not under
`src/`.  Per spec §4.1/§3, materialization computes the table lazily from the
model: a Placeholder materializes a uniform table over its cardinality, one
column per parent context (reading the parents and their cardinalities from
the model); a Functional distribution tabulates its pure function over the
parent state-value tuples, its states being the distinct outputs (one-hot
columns).  `TabularCPD` has no such method (`hasattr` is false), so the
caller never invokes this on it; it is mapped to itself for totality. -/
def CPD.initializeTabularCPD (m : CID) : CPD → M CPD
  | CPD.tabular v c sn t => M.pure (CPD.tabular v c sn t)
  | CPD.null v card sn _ =>
    let parents := m.get_parents v
    M.bind (M.mapList m.get_cardinalityM parents) fun parent_cards =>
    let ncols := parent_cards.prod
    M.pure (CPD.null v card sn (some
      { values := List.replicate card (List.replicate ncols (some (1 / (card : ℚ))))
        evidence := parents
        evidence_card := parent_cards }))
  | CPD.func v fn ev _ =>
    M.bind (M.mapList (fun p =>
        match m.get_cpds p with
        | none => M.throw Err.attributeError
        | some c => M.pure (snLookup c.state_names p)) ev) fun parent_vals =>
    let tuples := cartProd parent_vals
    let outs := tuples.map fn
    let states := outs.foldl (fun acc x => if x ∈ acc then acc else acc ++ [x]) []
    M.pure (CPD.func v fn ev (some
      (states.length,
       (v, states) :: ev.zip parent_vals,
       { values := states.map (fun s => outs.map (fun o => if o = s then some 1 else some 0))
         evidence := ev
         evidence_card := parent_vals.map List.length })))

/-- One step of `add_cpds`' second loop: `self.cpds[i].initializeTabularCPD(self)`
when the attribute exists (i.e. the CPD is not a plain `TabularCPD`),
mutating the stored CPD in place. -/
def CID.initStep (st : CID) (i : ℕ) : M CID :=
  match st.cpds.get? i with
  | none => M.pure st
  | some (CPD.tabular _ _ _ _) => M.pure st
  | some c =>
    M.bind (c.initializeTabularCPD st) fun c' =>
    M.pure { st with cpds := st.cpds.set i c' }

/-- The second loop of `add_cpds`, over the (already updated) CPD list. -/
def CID.initAll (cid : CID) : M CID :=
  M.foldList CID.initStep cid (List.range cid.cpds.length)

/-- The body of `add_cpds`' first loop for one CPD: the variant check (which
is vacuous in the typed embedding, every `CPD` constructor being admissible),
the scope check, and replace-or-append with an overwrite warning. -/
def CID.attachOne (cid : CID) (cpd : CPD) : M CID :=
  if ¬ (∀ v ∈ cpd.scope, v ∈ cid.nodes) then
    M.throw Err.valueError
  else
    match replaceCpd cid.cpds cpd with
    | (newList, true) =>
      M.bind (M.warn ("Replacing existing CPD for " ++ cpd.var)) fun _ =>
      M.pure { cid with cpds := newList }
    | (newList, false) => M.pure { cid with cpds := newList }

/-- `add_cpds(*cpds)`: attach each CPD (replace-or-append), then initialize
every stored CPD that exposes `initializeTabularCPD`. -/
def CID.add_cpds (cid : CID) (newCpds : List CPD) : M CID :=
  M.bind (M.foldList CID.attachOne cid newCpds) fun cid2 => cid2.initAll

/-- `copy()`: rebuild the model from the edge list alone, then re-attach
copies of the CPDs (so isolated nodes are dropped). -/
def CID.copy (cid : CID) : M CID :=
  M.bind (CID.make cid.edges cid.decision_nodes cid.utility_nodes) fun model_copy =>
  if cid.cpds.isEmpty then M.pure model_copy
  else model_copy.add_cpds (cid.cpds.map CPD.copy)

/-- `impute_random_decision(d)`: read the state names and cardinality of the
current CPD of `d` (raising `AttributeError` when there is none, since
`get_cpds` returns `None`), and attach a `NullCPD` with that cardinality and
those state names. -/
def CID.impute_random_decision (cid : CID) (d : String) : M CID :=
  match cid.get_cpds d with
  | none => M.throw Err.attributeError
  | some c => cid.add_cpds [CPD.null d c.variable_card c.state_names none]

/-- `impute_random_policy()`. -/
def CID.impute_random_policy (cid : CID) : M CID :=
  M.foldList CID.impute_random_decision cid cid.decision_nodes

/-- Modelled from the spec: `convertToTabularCPD` lives in `cpd.py`, not under
`src/`.  Per spec §3/§6 the "convertible to an equivalent Tabular
distribution" capability belongs to the Functional variant (`to_tabular()`,
"for Functional"); a plain `TabularCPD` or a `NullCPD` has no such attribute,
so calling it raises `AttributeError`.  An uninitialized `FunctionCPD` has no
table to convert yet (`ValueError`). -/
def CPD.convertToTabularCPD : CPD → M CPD
  | CPD.func v _ _ (some (card, sn, t)) =>
    M.pure (CPD.tabular v card sn t)
  | CPD.func _ _ _ none => M.throw Err.valueError
  | _ => M.throw Err.attributeError

/-- `freeze_policy(d)`: replace the (Function) CPD of `d` with the
corresponding TabularCPD. -/
def CID.freeze_policy (cid : CID) (d : String) : M CID :=
  match cid.get_cpds d with
  | none => M.throw Err.attributeError
  | some c => M.bind c.convertToTabularCPD (fun tc => cid.add_cpds [tc])

/-- pgmpy `DiscreteFactor` as returned by `BeliefPropagation.query`: target
variables (`factor.variables`; the field is named `vars` because `variables`
is reserved), their cardinalities, the flattened value array in row-major
(`np.ndenumerate`) order, and the numeric state names. -/
structure Factor where
  vars : List String
  cardinality : List ℕ
  values : List PVal
  state_names : StateNames

/-- `factor.normalize()`: divide every entry by the total. -/
def Factor.normalize (f : Factor) : Factor :=
  { f with values := f.values.map (fun v => pDiv v (pSum f.values)) }

/-- The numeric state values of one joint outcome:
`[factor.state_names[factor.variables[i]][j] for i, j in enumerate(idx)]`. -/
def outcomeUtils (f : Factor) (idx : List ℕ) : List ℚ :=
  idx.enum.map (fun ij => ((snLookup f.state_names ((f.vars.get? ij.1).getD "")).get? ij.2).getD 0)

/-- The `ev` accumulation loop shared by `expected_utility` and
`expected_value`: over every joint outcome, add the sum of the outcome's
state values times its probability. -/
def factorExpectation (f : Factor) : PVal :=
  ((allIdx f.cardinality).zip f.values).foldl
    (fun ev p => pAdd ev (pMul (some (outcomeUtils f p.1).sum) p.2)) (some 0)

/-- The external exact-inference engine (`BeliefPropagation(model).query`),
abstracted at its interface: model, target variables and evidence in, a
factor (or an inference failure) out. -/
abbrev Oracle : Type := CID → List String → Context → Except Err Factor

/-- `_query(query, context)`: one call into the inference engine on `self`. -/
def CID.runQuery (q : Oracle) (cid : CID) (targets : List String) (context : Context) :
    M Factor :=
  match q cid targets context with
  | Except.error e => M.throw e
  | Except.ok f => M.pure f

/-- `expected_utility(context)`: query the utility nodes, normalize, and
accumulate state-value-sum times probability. -/
def CID.expected_utility (q : Oracle) (cid : CID) (context : Context) : M PVal :=
  M.bind (cid.runQuery q cid.utility_nodes context) fun factor =>
  let factor := factor.normalize
  M.pure (factorExpectation factor)

/-- `expected_value(variable, context)`. -/
def CID.expected_value (q : Oracle) (cid : CID) (v : String) (context : Context) : M PVal :=
  M.bind (cid.runQuery q [v] context) fun factor =>
  let factor := factor.normalize
  M.pure (factorExpectation factor)

/-- `_possible_contexts(decision)`: `None` when the decision has no parents,
otherwise the contexts over the parents' index ranges in `itertools.product`
order. -/
def CID.possible_contexts (cid : CID) (decision : String) : M (Option (List Context)) :=
  let parents := cid.get_parents decision
  if parents.isEmpty then M.pure none
  else
    M.bind (M.mapList cid.get_cardinalityM parents) fun parent_cards =>
    M.pure (some ((allIdx parent_cards).map (fun ct => parents.zip ct)))

/-- The degenerate-optimization warning text
(`warnings.warn('zero prob on {} so all actions deemed optimal'.format(context))`). -/
def degenerateMsg (context : Context) : String :=
  "zero prob on " ++ ctxRepr context ++ " so all actions deemed optimal"

/-- The per-action expected-utility loop of `_optimal_decisions`, on the
already neutralized copy `new`. -/
def CID.utilitiesFor (q : Oracle) (new : CID) (decision : String) (context : Context)
    (acts : List ℕ) : M (List PVal) :=
  M.mapList (fun act => new.expected_utility q (ctxSet context decision act)) acts

/-- `np.where(np.array(utilities) == np.max(utilities))` applied to `acts`:
the actions whose utility equals the maximum (NaN never matches). -/
def eqMaxIndices (acts : List ℕ) (utilities : List PVal) : List ℕ :=
  ((acts.zip utilities).filter (fun p => pEqb p.2 (pMaxList utilities))).map (fun p => p.1)

/-- `_optimal_decisions(decision, context)`: neutralize the decision on a
copy, evaluate every action, and return the argmax set — or, when it is
empty, warn and return every action. -/
def CID.optimal_decisions (q : Oracle) (cid : CID) (decision : String) (context : Context) :
    M (List ℕ) :=
  M.bind cid.copy fun new =>
  M.bind (new.impute_random_decision decision) fun new =>
  M.bind (match cid.get_cpds decision with
          | none => M.throw Err.attributeError
          | some c => M.pure c.variable_card) fun card =>
  let acts := List.range card
  M.bind (CID.utilitiesFor q new decision context acts) fun utilities =>
  let indices := eqMaxIndices acts utilities
  if indices.isEmpty then
    let lastCtx := if card = 0 then context else ctxSet context decision (card - 1)
    M.bind (M.warn (degenerateMsg lastCtx)) fun _ =>
    M.pure acts
  else M.pure indices

/-- Python `xs[0]`: `IndexError` on an empty list. -/
def listHead : List ℕ → M ℕ
  | [] => M.throw Err.indexError
  | a :: _ => M.pure a

/-- `np.eye(n_actions)[indices].T`: entry `(a, c)` is 1 iff `indices[c] = a`
(one action row per state, one column per context). -/
def indicesToProbTable (indices : List ℕ) (n_actions : ℕ) : List (List PVal) :=
  (List.range n_actions).map (fun a => indices.map (fun i => if i = a then some 1 else some 0))

/-- `_get_sp_policy(decision)`: the chosen action per context (the first
element of `_optimal_decisions`), assembled into a deterministic
`TabularCPD`. -/
def CID.get_sp_policy (q : Oracle) (cid : CID) (decision : String) : M CPD :=
  M.bind (cid.possible_contexts decision) fun contexts =>
  M.bind (match contexts with
    | some (c :: cs) =>
      M.mapList (fun context =>
        M.bind (cid.optimal_decisions q decision context) listHead) (c :: cs)
    | _ =>
      M.bind (M.bind (cid.optimal_decisions q decision []) listHead) fun act =>
      M.pure [act]) fun actions =>
  M.bind (cid.get_cardinalityM decision) fun variable_card =>
  let prob_table := indicesToProbTable actions variable_card
  let evidence := cid.get_parents decision
  M.bind (M.mapList cid.get_cardinalityM evidence) fun evidence_card =>
  M.bind (match cid.get_cpds decision with
          | none => M.throw Err.attributeError
          | some c => M.pure c.state_names) fun sn =>
  M.pure (CPD.tabular decision variable_card sn
    { values := prob_table, evidence := evidence, evidence_card := evidence_card })

/-- `impute_optimal_policy()`: compute the policies for all decisions in
reverse topological order — the starred list comprehension evaluates every
`_get_sp_policy` against the *unchanged* `self` — and then commit them in a
single `add_cpds` call. -/
def CID.impute_optimal_policy (q : Oracle) (cid : CID) : M CID :=
  let decisions := cid.get_valid_order cid.decision_nodes
  M.bind (M.mapList (cid.get_sp_policy q) decisions.reverse) fun policies =>
  cid.add_cpds policies

/-- `solve()`: work on a copy, impute, and return the dictionary
`{d: cpds}` — together with the final `self`, which no statement of the
method body mutates. -/
def CID.solve (q : Oracle) (cid : CID) : M (CID × List (String × Option CPD)) :=
  M.bind cid.copy fun new_cid =>
  M.bind (new_cid.impute_optimal_policy q) fun new_cid =>
  M.pure (cid, new_cid.decision_nodes.map (fun d => (d, new_cid.get_cpds d)))

/-- The external d-separation test `is_active_trail(start, end, observed)`,
abstracted at its interface. -/
abbrev ActiveTrail : Type := CID → String → String → List String → Bool

/-- The recall-check warning text. -/
def recallWarning (d2 d1 u : String) : String :=
  d2 ++ " has insufficient recall of " ++ d1 ++ " due to utility " ++ u

/-- Innermost loop of `check_sufficient_recall`: over the utility nodes for a
fixed ordered decision pair; `false` means an active trail was found (after
logging), `true` means continue. -/
def CID.sr_loop_u (active : ActiveTrail) (cid : CID) (d1 d2 : String) :
    List String → M Bool
  | [] => M.pure true
  | u :: rest =>
    if d2 ∈ cid.get_ancestors_of u then
      M.bind cid.copy fun cid_with_policy =>
      M.bind (cid_with_policy.add_edge "pi" d1) fun cid_with_policy =>
      let observed := cid_with_policy.get_parents d2 ++ [d2]
      if active cid_with_policy "pi" u observed then
        M.bind (M.warn (recallWarning d2 d1 u)) fun _ =>
        M.pure false
      else cid.sr_loop_u active d1 d2 rest
    else cid.sr_loop_u active d1 d2 rest

/-- Middle loop: over the decisions strictly after `d1` in the ordering. -/
def CID.sr_loop_d2 (active : ActiveTrail) (cid : CID) (d1 : String) :
    List String → M Bool
  | [] => M.pure true
  | d2 :: rest =>
    M.bind (cid.sr_loop_u active d1 d2 cid.utility_nodes) fun b =>
    if b then cid.sr_loop_d2 active d1 rest else M.pure false

/-- Outer loop: over the decision ordering, pairing each decision with the
ones after it. -/
def CID.sr_loop_d1 (active : ActiveTrail) (cid : CID) : List String → M Bool
  | [] => M.pure true
  | d1 :: rest =>
    M.bind (cid.sr_loop_d2 active d1 rest) fun b =>
    if b then cid.sr_loop_d1 active rest else M.pure false

/-- `check_sufficient_recall()`, together with the final `self` (which no
statement of the method body mutates — all trial edges go to copies). -/
def CID.check_sufficient_recall (active : ActiveTrail) (cid : CID) : M (CID × Bool) :=
  M.bind (cid.sr_loop_d1 active (cid.get_valid_order cid.decision_nodes)) fun b =>
  M.pure (cid, b)

/-- The materialized table of a CPD, when it has one. -/
def cpdTable : CPD → Option TabData
  | CPD.tabular _ _ _ t => some t
  | CPD.null _ _ _ t => t
  | CPD.func _ _ _ t => t.map (fun p => p.2.2)

/-- Row-major rank of an evidence-index tuple (first evidence slowest). -/
def evidenceRank (cards idxs : List ℕ) : ℕ :=
  (cards.zip idxs).foldl (fun r p => r * p.1 + p.2) 0

/-- The probability entry of one CPD under a full joint assignment. -/
def cpdProbOf (asg : List (String × ℕ)) (c : CPD) : PVal :=
  match cpdTable c with
  | none => none
  | some t =>
    let row := (asg.lookup c.var).getD 0
    let col := evidenceRank t.evidence_card (t.evidence.map (fun p => (asg.lookup p).getD 0))
    (((t.values.get? row).getD []).get? col).getD (some 0)

/-- The weight of one joint assignment: the product of all CPD entries. -/
def jointWeight (cid : CID) (asg : List (String × ℕ)) : PVal :=
  cid.cpds.foldl (fun w c => pMul w (cpdProbOf asg c)) (some 1)

/-- Modelled from the spec: the external exact-inference engine (spec §1/§6,
an "exact-inference engine that answers marginal/conditional probability
queries over an arbitrary acyclic graphical model"), instantiated for
witnesses by brute-force enumeration: weight every joint assignment by the
product of the attached CPD entries, keep the ones consistent with the
evidence, and marginalize onto the targets.  Like the engine the source's
`_query` comment describes, it returns `P(targets, evidence)` unnormalized
(`expected_utility` normalizes). -/
def enumQuery : Oracle := fun cid targets context =>
  match targets.mapM (fun t =>
      (cid.get_cpds t).map (fun c => (c.variable_card, snLookup c.state_names t))) with
  | none => Except.error Err.inferenceError
  | some tinfo =>
    match cid.nodes.mapM (fun n => (cid.get_cpds n).map CPD.variable_card) with
    | none => Except.error Err.inferenceError
    | some ncards =>
      let asgs := (allIdx ncards).map (fun idxs => cid.nodes.zip idxs)
      let tcards := tinfo.map (fun p => p.1)
      let keep (tidx : List ℕ) (asg : List (String × ℕ)) : Bool :=
        context.all (fun p => decide (asg.lookup p.1 = some p.2)) &&
        (targets.zip tidx).all (fun p => decide (asg.lookup p.1 = some p.2))
      Except.ok
        { vars := targets
          cardinality := tcards
          values := (allIdx tcards).map (fun tidx =>
            pSum ((asgs.filter (keep tidx)).map (jointWeight cid)))
          state_names := targets.zip (tinfo.map (fun p => p.2)) }

/-- A three-node decision chain `D1 → D2 → U` (with `D1 → U`):
`U = 10` when `D1 = 1 ∧ D2 = 1`, `U = 6` when `D1 = 0`, else `U = 0`.
Both decisions hold initialized uniform placeholders, as after
`impute_random_policy`.  A subgame-perfect `D1` plays 1 (worth 10 given an
optimal `D2`); against a *uniform* `D2`, action 1 is worth only 5 < 6. -/
def cidC1 : CID :=
  { nodes := ["D1", "D2", "U"]
    edges := [("D1", "D2"), ("D1", "U"), ("D2", "U")]
    decision_nodes := ["D1", "D2"]
    utility_nodes := ["U"]
    cpds :=
      [CPD.null "D1" 2 [("D1", [0, 1])]
        (some { values := [[some (1/2)], [some (1/2)]], evidence := [], evidence_card := [] }),
       CPD.null "D2" 2 [("D2", [0, 1])]
        (some { values := [[some (1/2), some (1/2)], [some (1/2), some (1/2)]],
                evidence := ["D1"], evidence_card := [2] }),
       CPD.tabular "U" 3 [("U", [0, 6, 10]), ("D1", [0, 1]), ("D2", [0, 1])]
        { values := [[some 0, some 0, some 1, some 0],
                     [some 1, some 1, some 0, some 0],
                     [some 0, some 0, some 0, some 1]],
          evidence := ["D1", "D2"], evidence_card := [2, 2] }] }

/-- The optimal rule for `D2` that `solve` computes (copy `D1`'s value),
committed into the model, for evaluating what `D1`'s optimization *should*
see according to the claimed backward-induction order. -/
def cidC1committed : CID :=
  { cidC1 with cpds :=
      [CPD.null "D1" 2 [("D1", [0, 1])]
        (some { values := [[some (1/2)], [some (1/2)]], evidence := [], evidence_card := [] }),
       CPD.tabular "D2" 2 [("D2", [0, 1])]
        { values := [[some 1, some 0], [some 0, some 1]],
          evidence := ["D1"], evidence_card := [2] },
       CPD.tabular "U" 3 [("U", [0, 6, 10]), ("D1", [0, 1]), ("D2", [0, 1])]
        { values := [[some 0, some 0, some 1, some 0],
                     [some 1, some 1, some 0, some 0],
                     [some 0, some 0, some 0, some 1]],
          evidence := ["D1", "D2"], evidence_card := [2, 2] }] }

/-- Projection of a solve result: the committed probability table of one
decision. -/
def solvedTable (r : M (CID × List (String × Option CPD))) (d : String) :
    Option (List (List PVal)) :=
  match r with
  | (_, Except.ok (_, pol)) =>
    match pol.lookup d with
    | some (some c) => some c.valuesOf
    | _ => none
  | _ => none


@[simp] theorem M.bind_ok_pair {α β : Type} (w : List String) (a : α) (f : α → M β) :
    M.bind (w, Except.ok a) f = (w ++ (f a).1, (f a).2) := rfl

@[simp] theorem M.bind_err_pair {α β : Type} (w : List String) (e : Err) (f : α → M β) :
    M.bind ((w, Except.error e) : M α) f = (w, Except.error e) := rfl

/-- A decision chain with the same graph as `cidC1` (used as an identical
twin for the determinism property). -/
def cidC8 : CID :=
  { nodes := ["D1", "D2", "U"]
    edges := [("D1", "D2"), ("D1", "U"), ("D2", "U")]
    decision_nodes := ["D1", "D2"]
    utility_nodes := ["U"]
    cpds :=
      [CPD.null "D1" 2 [("D1", [0, 1])]
        (some { values := [[some (1/2)], [some (1/2)]], evidence := [], evidence_card := [] }),
       CPD.null "D2" 2 [("D2", [0, 1])]
        (some { values := [[some (1/2), some (1/2)], [some (1/2), some (1/2)]],
                evidence := ["D1"], evidence_card := [2] }),
       CPD.tabular "U" 3 [("U", [0, 6, 10]), ("D1", [0, 1]), ("D2", [0, 1])]
        { values := [[some 0, some 0, some 1, some 0],
                     [some 1, some 1, some 0, some 0],
                     [some 0, some 0, some 0, some 1]],
          evidence := ["D1", "D2"], evidence_card := [2, 2] }] }

/-- A two-node model whose decision already holds a Tabular CPD. -/
def cidC3 : CID :=
  { nodes := ["D", "U"]
    edges := [("D", "U")]
    decision_nodes := ["D"]
    utility_nodes := ["U"]
    cpds :=
      [CPD.tabular "D" 2 [("D", [0, 1])]
        { values := [[some (1/2)], [some (1/2)]], evidence := [], evidence_card := [] },
       CPD.tabular "U" 2 [("U", [0, 1]), ("D", [0, 1])]
        { values := [[some 1, some 0], [some 0, some 1]],
          evidence := ["D"], evidence_card := [2] }] }

/-- C1.  The code commits, for every decision and context, the one-hot table
of the first action maximizing expected utility with the decision neutralized
— but each `_get_sp_policy` is evaluated against the *pre-solve* model (the
policies are batch-added after the whole list comprehension), not against the
already-committed rules of later decisions.  At `cidC1` the solver commits
action 0 for `D1` (its optimum against the original uniform `D2`), although
the first maximizing action against the committed rule of `D2` is action 1;
`D2`'s own rule (copy `D1`) matches the claim. -/
theorem solve_commits_first_argmax_of_presolve_model :
    solvedTable (CID.solve enumQuery cidC1) "D1" = some [[some 1], [some 0]]
    ∧ solvedTable (CID.solve enumQuery cidC1) "D2" = some [[some 1, some 0], [some 0, some 1]]
    ∧ (CID.optimal_decisions enumQuery cidC1 "D1" []).2 = Except.ok [0]
    ∧ (CID.optimal_decisions enumQuery cidC1committed "D1" []).2 = Except.ok [1] :=
  ⟨by with_unfolding_all rfl, by with_unfolding_all rfl, by with_unfolding_all rfl,
   by with_unfolding_all rfl⟩

/-- C6.  Neither `solve` nor `check_sufficient_recall` mutates the CID they
are called on: on every successful call the final `self` is the original
value (the method bodies only read `self` and mutate disposable copies), so
nodes, edges, role lists and attached CPDs are unchanged and the `pi` marker
node and its edge never appear in the original graph. -/
theorem solve_and_check_do_not_mutate (q : Oracle) (active : ActiveTrail) (cid : CID) :
    (∀ w c' p, CID.solve q cid = (w, Except.ok (c', p)) → c' = cid)
    ∧ (∀ w c' b, CID.check_sufficient_recall active cid = (w, Except.ok (c', b)) → c' = cid)
    ∧ (∀ w c' b, CID.check_sufficient_recall active cid = (w, Except.ok (c', b)) →
        ("pi" ∉ cid.nodes → "pi" ∉ c'.nodes)
        ∧ ∀ d1, ("pi", d1) ∉ cid.edges → ("pi", d1) ∉ c'.edges) := by
  have hsolve : ∀ w c' p, CID.solve q cid = (w, Except.ok (c', p)) → c' = cid := by
    intro w c' p h
    unfold CID.solve at h
    obtain ⟨w₁, a, w₂, h1, h2, hw⟩ := M.bind_eq_ok h
    obtain ⟨w₃, b, w₄, h3, h4, hw2⟩ := M.bind_eq_ok h2
    simp [M.pure, Prod.ext_iff] at h4
    exact h4.2.1.symm
  have hcheck : ∀ w c' b, CID.check_sufficient_recall active cid = (w, Except.ok (c', b)) →
      c' = cid := by
    intro w c' b h
    unfold CID.check_sufficient_recall at h
    obtain ⟨w₁, a, w₂, h1, h2, hw⟩ := M.bind_eq_ok h
    simp [M.pure, Prod.ext_iff] at h2
    exact h2.2.1.symm
  refine ⟨hsolve, hcheck, ?_⟩
  intro w c' b h
  have hc := hcheck w c' b h
  subst hc
  exact ⟨fun hn => hn, fun d1 he => he⟩

/-- The exact warnings of `solve enumQuery cidC1` (one per CPD replacement:
two trial neutralizations of `D2`, one of `D1`, then the two commits). -/
def solveC1warnings : List String :=
  ["Replacing existing CPD for D2", "Replacing existing CPD for D2",
   "Replacing existing CPD for D1", "Replacing existing CPD for D2",
   "Replacing existing CPD for D1"]

/-- The exact policy dictionary of `solve enumQuery cidC1`. -/
def solveC1policy : List (String × Option CPD) :=
  [("D1", some (CPD.tabular "D1" 2 [("D1", [0, 1])]
      { values := [[some 1], [some 0]], evidence := [], evidence_card := [] })),
   ("D2", some (CPD.tabular "D2" 2 [("D2", [0, 1])]
      { values := [[some 1, some 0], [some 0, some 1]],
        evidence := ["D1"], evidence_card := [2] }))]

theorem solve_and_check_do_not_mutate_witness :
    CID.solve enumQuery cidC1 = (solveC1warnings, Except.ok (cidC1, solveC1policy))
    ∧ cidC1 = cidC1 :=
  ⟨by with_unfolding_all rfl,
   (solve_and_check_do_not_mutate enumQuery (fun _ _ _ _ => false) cidC1).1
     solveC1warnings cidC1 solveC1policy (by with_unfolding_all rfl)⟩

/-- C8.  `solve` is a pure function of the CID value: two CIDs with the same
graph, the same role lists and the same attached CPDs yield the same result
(warnings, policy tables and all). -/
theorem solve_deterministic (q : Oracle) (c1 c2 : CID)
    (hn : c1.nodes = c2.nodes) (he : c1.edges = c2.edges)
    (hd : c1.decision_nodes = c2.decision_nodes)
    (hu : c1.utility_nodes = c2.utility_nodes)
    (hc : c1.cpds = c2.cpds) :
    CID.solve q c1 = CID.solve q c2 := by
  cases c1
  cases c2
  simp only at hn he hd hu hc
  subst hn he hd hu hc
  rfl

theorem solve_deterministic_witness :
    (cidC1.nodes = cidC8.nodes ∧ cidC1.edges = cidC8.edges
      ∧ cidC1.decision_nodes = cidC8.decision_nodes
      ∧ cidC1.utility_nodes = cidC8.utility_nodes ∧ cidC1.cpds = cidC8.cpds)
    ∧ CID.solve enumQuery cidC1 = CID.solve enumQuery cidC8 :=
  ⟨⟨rfl, rfl, rfl, rfl, rfl⟩,
   solve_deterministic enumQuery cidC1 cidC8 rfl rfl rfl rfl rfl⟩

/-- C3 counterexample.  At `cidC3` the decision `D` already holds a Tabular
CPD, yet `freeze_policy("D")` does not succeed as a no-op: `TabularCPD` has
no `convertToTabularCPD` attribute, so the call raises `AttributeError`. -/
theorem freeze_policy_tabular_not_noop :
    (cidC3.get_cpds "D").map CPD.isTabular = some true
    ∧ CID.freeze_policy cidC3 "D" = ([], Except.error Err.attributeError) :=
  ⟨rfl, rfl⟩

/-- C3 amended.  For every decision node whose attached distribution is
already Tabular, `freeze_policy` raises `AttributeError` (the Tabular variant
has no to-tabular conversion) and commits nothing, instead of being a no-op;
freezing is the `FunctionCPD → TabularCPD` conversion its docstring
describes. -/
theorem freeze_policy_on_tabular_raises (cid : CID) (d v : String) (card : ℕ)
    (sn : StateNames) (t : TabData)
    (h : cid.get_cpds d = some (CPD.tabular v card sn t)) :
    CID.freeze_policy cid d = ([], Except.error Err.attributeError) := by
  unfold CID.freeze_policy
  rw [h]
  rfl

theorem freeze_policy_on_tabular_raises_witness :
    cidC3.get_cpds "D" = some (CPD.tabular "D" 2 [("D", [0, 1])]
      { values := [[some (1/2)], [some (1/2)]], evidence := [], evidence_card := [] })
    ∧ CID.freeze_policy cidC3 "D" = ([], Except.error Err.attributeError) :=
  ⟨by with_unfolding_all rfl,
   freeze_policy_on_tabular_raises cidC3 "D" "D" 2 [("D", [0, 1])]
     { values := [[some (1/2)], [some (1/2)]], evidence := [], evidence_card := [] }
     (by with_unfolding_all rfl)⟩

/-- C4.  When no candidate action attains the maximum expected utility (the
argmax index set of `np.where(... == np.max(...))` is empty, the degenerate
all-NaN / zero-probability case), `_optimal_decisions` does not raise: it
emits the degenerate-optimization warning and returns the full action set,
and the rule committed from it (`_get_sp_policy` takes element 0) defaults to
the first action in index order. -/
theorem optimal_decisions_degenerate_returns_all (q : Oracle) (cid new0 new1 : CID)
    (d : String) (context : Context) (c : CPD) (w₁ : List String) (us : List PVal)
    (h1 : cid.copy = M.pure new0)
    (h2 : new0.impute_random_decision d = (w₁, Except.ok new1))
    (h3 : cid.get_cpds d = some c)
    (h4 : CID.utilitiesFor q new1 d context (List.range c.variable_card) = ([], Except.ok us))
    (h5 : eqMaxIndices (List.range c.variable_card) us = [])
    (h6 : 0 < c.variable_card) :
    CID.optimal_decisions q cid d context =
      (w₁ ++ [degenerateMsg (ctxSet context d (c.variable_card - 1))],
       Except.ok (List.range c.variable_card))
    ∧ M.bind (CID.optimal_decisions q cid d context) listHead =
      (w₁ ++ [degenerateMsg (ctxSet context d (c.variable_card - 1))], Except.ok 0) := by
  have hmain : CID.optimal_decisions q cid d context =
      (w₁ ++ [degenerateMsg (ctxSet context d (c.variable_card - 1))],
       Except.ok (List.range c.variable_card)) := by
    unfold CID.optimal_decisions
    rw [h1, M.bind_pure, h2, M.bind_ok_pair, h3]
    simp only [M.bind_pure]
    rw [h4, M.bind_ok_pair]
    simp only [h5, List.isEmpty_nil, if_true, Nat.pos_iff_ne_zero.mp h6, if_false]
    simp [M.bind, M.warn, M.pure, Nat.pos_iff_ne_zero.mp h6]
  refine ⟨hmain, ?_⟩
  rw [hmain]
  obtain ⟨k, hk⟩ := Nat.exists_eq_succ_of_ne_zero (Nat.pos_iff_ne_zero.mp h6)
  rw [hk, List.range_succ_eq_map]
  simp [M.bind, listHead, M.pure]

/-- An inference engine returning an all-NaN factor (as a real
`BeliefPropagation` does after normalizing a zero-probability slice). -/
def nanOracle : Oracle := fun _ _ _ =>
  Except.ok { vars := ["U"], cardinality := [3], values := [none, none, none],
              state_names := [("U", [0, 6, 10])] }

theorem optimal_decisions_degenerate_returns_all_witness :
    CID.utilitiesFor nanOracle cidC1 "D1" [] (List.range 2) = ([], Except.ok [none, none])
    ∧ eqMaxIndices (List.range 2) [none, none] = []
    ∧ CID.optimal_decisions nanOracle cidC1 "D1" [] =
        (["Replacing existing CPD for D1"] ++ [degenerateMsg (ctxSet [] "D1" (2 - 1))],
         Except.ok (List.range 2)) :=
  ⟨by with_unfolding_all rfl, by with_unfolding_all rfl,
   (optimal_decisions_degenerate_returns_all nanOracle cidC1 cidC1 cidC1 "D1" []
      (CPD.null "D1" 2 [("D1", [0, 1])]
        (some { values := [[some (1/2)], [some (1/2)]], evidence := [], evidence_card := [] }))
      ["Replacing existing CPD for D1"] [none, none]
      (by with_unfolding_all rfl) (by with_unfolding_all rfl) (by with_unfolding_all rfl)
      (by with_unfolding_all rfl) (by with_unfolding_all rfl) (by decide)).1⟩

theorem pSum_map_some_aux (vs : List ℚ) (acc : ℚ) :
    (vs.map some).foldl pAdd (some acc) = some (acc + vs.sum) := by
  induction vs generalizing acc with
  | nil => simp [pAdd]
  | cons x xs ih => simp [pAdd, ih, add_assoc]

theorem pSum_map_some (vs : List ℚ) : pSum (vs.map some) = some vs.sum := by
  simpa using pSum_map_some_aux vs 0

theorem sum_map_div (vs : List ℚ) (s : ℚ) : (vs.map (fun x => x / s)).sum = vs.sum / s := by
  induction vs with
  | nil => simp
  | cons x xs ih => simp [ih, add_div]

theorem normalize_values_some (f : Factor) (vs : List ℚ)
    (hfv : f.values = vs.map some) (hs0 : vs.sum ≠ 0) :
    (Factor.normalize f).values = (vs.map (fun x => x / vs.sum)).map some := by
  simp only [Factor.normalize, hfv, pSum_map_some]
  rw [List.map_map, List.map_map]
  apply List.map_congr_left
  intro x _
  simp [pDiv, hs0]

theorem outcomeUtils_normalize (f : Factor) (idx : List ℕ) :
    outcomeUtils (Factor.normalize f) idx = outcomeUtils f idx := rfl

theorem expectation_fold_some (g : List ℕ → ℚ) (pairs : List (List ℕ × ℚ)) (acc : ℚ) :
    (pairs.map (fun p => (p.1, some p.2))).foldl
        (fun ev p => pAdd ev (pMul (some (g p.1)) p.2)) (some acc)
      = some (acc + (pairs.map (fun p => g p.1 * p.2)).sum) := by
  induction pairs generalizing acc with
  | nil => simp
  | cons x xs ih =>
    simp only [List.map_cons, List.foldl_cons, List.sum_cons]
    have hstep : pAdd (some acc) (pMul (some (g x.1)) (some x.2)) = some (acc + g x.1 * x.2) :=
      rfl
    rw [hstep, ih, add_assoc]

theorem factorExpectation_some (f : Factor) (vs : List ℚ) (h : f.values = vs.map some) :
    factorExpectation f =
      some (((allIdx f.cardinality).zip vs).map
        (fun p => (outcomeUtils f p.1).sum * p.2)).sum := by
  unfold factorExpectation
  rw [h, List.zip_map_right]
  have := expectation_fold_some (fun idx => (outcomeUtils f idx).sum)
    ((allIdx f.cardinality).zip vs) 0
  simp only [List.map_map] at this ⊢
  simpa using this

/-- C5.  On a successful inference query, `expected_utility` (and likewise
`expected_value` for a single target) first normalizes the returned factor —
after which its probabilities sum to one — and then returns the sum, over
every joint outcome of the target variables, of (the sum of the outcome's
numeric state values) times its normalized probability. -/
theorem expected_utility_normalizes_then_sums (q : Oracle) (cid : CID) (context : Context)
    (f g : Factor) (vs ws : List ℚ) (y : String)
    (hf : q cid cid.utility_nodes context = Except.ok f)
    (hfv : f.values = vs.map some) (hs0 : vs.sum ≠ 0)
    (hg : q cid [y] context = Except.ok g)
    (hgv : g.values = ws.map some) (hr0 : ws.sum ≠ 0) :
    pSum (Factor.normalize f).values = some 1
    ∧ cid.expected_utility q context =
        M.pure (some (((allIdx f.cardinality).zip vs).map
          (fun p => (outcomeUtils f p.1).sum * (p.2 / vs.sum))).sum)
    ∧ pSum (Factor.normalize g).values = some 1
    ∧ cid.expected_value q y context =
        M.pure (some (((allIdx g.cardinality).zip ws).map
          (fun p => (outcomeUtils g p.1).sum * (p.2 / ws.sum))).sum) := by
  have hnorm : ∀ (f' : Factor) (vs' : List ℚ), f'.values = vs'.map some → vs'.sum ≠ 0 →
      pSum (Factor.normalize f').values = some 1 := by
    intro f' vs' hv h0
    rw [normalize_values_some f' vs' hv h0, pSum_map_some, sum_map_div, div_self h0]
  have hexp : ∀ (f' : Factor) (vs' : List ℚ), f'.values = vs'.map some → vs'.sum ≠ 0 →
      factorExpectation (Factor.normalize f') =
        some (((allIdx f'.cardinality).zip vs').map
          (fun p => (outcomeUtils f' p.1).sum * (p.2 / vs'.sum))).sum := by
    intro f' vs' hv h0
    rw [factorExpectation_some (Factor.normalize f') (vs'.map (fun x => x / vs'.sum))
      (normalize_values_some f' vs' hv h0)]
    have hcard : (Factor.normalize f').cardinality = f'.cardinality := rfl
    rw [hcard, List.zip_map_right, List.map_map]
    congr 1
  refine ⟨hnorm f vs hfv hs0, ?_, hnorm g ws hgv hr0, ?_⟩
  · unfold CID.expected_utility CID.runQuery
    rw [hf]
    simp only [M.bind_pure]
    rw [hexp f vs hfv hs0]
  · unfold CID.expected_value CID.runQuery
    rw [hg]
    simp only [M.bind_pure]
    rw [hexp g ws hgv hr0]

def c5factor : Factor :=
  { vars := ["U"], cardinality := [2], values := [some (1/4), some (1/4)],
    state_names := [("U", [0, 10])] }

/-- An inference engine returning a fixed unnormalized factor. -/
def constOracle : Oracle := fun _ _ _ => Except.ok c5factor

theorem expected_utility_normalizes_then_sums_witness :
    (constOracle cidC3 cidC3.utility_nodes [] = Except.ok c5factor)
    ∧ (([(1:ℚ)/4, 1/4]).sum ≠ 0)
    ∧ pSum (Factor.normalize c5factor).values = some 1
    ∧ CID.expected_utility constOracle cidC3 [] = M.pure (some 5)
    ∧ CID.expected_value constOracle cidC3 "U" [] = M.pure (some 5) := by
  have h := expected_utility_normalizes_then_sums constOracle cidC3 [] c5factor c5factor
    [(1:ℚ)/4, 1/4] [(1:ℚ)/4, 1/4] "U" rfl rfl (by norm_num) rfl rfl (by norm_num)
  refine ⟨rfl, by norm_num, h.1, ?_, ?_⟩
  · rw [h.2.1]
    with_unfolding_all rfl
  · rw [h.2.2.2]
    with_unfolding_all rfl

theorem replaceCpd_snd_true_of_mem (l : List CPD) (c old : CPD)
    (hold : old ∈ l) (hvar : old.var = c.var) : (replaceCpd l c).2 = true := by
  induction l with
  | nil => cases hold
  | cons x xs ih =>
    rcases List.mem_cons.mp hold with h | h
    · subst h
      simp [replaceCpd, hvar]
    · by_cases hx : x.var = c.var
      · simp [replaceCpd, hx]
      · simp [replaceCpd, hx, ih h]

theorem replaceCpd_no_match (l : List CPD) (c : CPD)
    (h : ∀ y ∈ l, y.var ≠ c.var) : replaceCpd l c = (l ++ [c], false) := by
  induction l with
  | nil => rfl
  | cons x xs ih =>
    have hx := h x (List.mem_cons_self x xs)
    simp only [replaceCpd, if_neg hx]
    rw [ih (fun y hy => h y (List.mem_cons_of_mem x hy))]
    rfl

theorem replaceCpd_preserves (l : List CPD) (c : CPD) :
    ∀ x ∈ l, x.var ≠ c.var → x ∈ (replaceCpd l c).1 := by
  induction l with
  | nil => intro x hx; cases hx
  | cons y ys ih =>
    intro x hx hne
    by_cases hy : y.var = c.var
    · simp only [replaceCpd, if_pos hy]
      rcases List.mem_cons.mp hx with h | h
      · subst h; exact absurd hy hne
      · exact List.mem_cons_of_mem _ h
    · simp only [replaceCpd, if_neg hy]
      rcases List.mem_cons.mp hx with h | h
      · subst h; exact List.mem_cons_self _ _
      · exact List.mem_cons_of_mem _ (ih x h hne)

theorem replaceCpd_mem (l : List CPD) (c : CPD) :
    ∀ x ∈ (replaceCpd l c).1, x ∈ l ∨ x = c := by
  induction l with
  | nil => intro x hx; simp [replaceCpd] at hx; exact Or.inr hx
  | cons y ys ih =>
    intro x hx
    by_cases hy : y.var = c.var
    · simp only [replaceCpd, if_pos hy] at hx
      rcases List.mem_cons.mp hx with h | h
      · exact Or.inr h
      · exact Or.inl (List.mem_cons_of_mem _ h)
    · simp only [replaceCpd, if_neg hy] at hx
      rcases List.mem_cons.mp hx with h | h
      · subst h; exact Or.inl (List.mem_cons_self _ _)
      · rcases ih x h with h' | h'
        · exact Or.inl (List.mem_cons_of_mem _ h')
        · exact Or.inr h'

theorem replaceCpd_find_self (l : List CPD) (c old : CPD)
    (hold : old ∈ l) (hvar : old.var = c.var) :
    (replaceCpd l c).1.find? (fun x => x.var == c.var) = some c := by
  induction l with
  | nil => cases hold
  | cons x xs ih =>
    by_cases hx : x.var = c.var
    · simp [replaceCpd, if_pos hx, List.find?_cons]
    · simp only [replaceCpd, if_neg hx]
      rcases List.mem_cons.mp hold with h | h
      · subst h; exact absurd hvar hx
      · simp [List.find?_cons, hx, ih h]

theorem replaceCpd_find_ne (l : List CPD) (c : CPD) (v : String) (hv : c.var ≠ v) :
    (replaceCpd l c).1.find? (fun x => x.var == v) = l.find? (fun x => x.var == v) := by
  induction l with
  | nil => simp [replaceCpd, List.find?_cons, hv]
  | cons x xs ih =>
    by_cases hx : x.var = c.var
    · simp only [replaceCpd, if_pos hx]
      rw [List.find?_cons, List.find?_cons]
      have : (c.var == v) = (x.var == v) := by
        rw [hx]
      rw [this]
      cases hb : (x.var == v) with
      | true =>
        exact absurd (hx ▸ (by simpa using hb)) hv
      | false => simp [List.find?_cons, hb]
    · simp only [replaceCpd, if_neg hx]
      rw [List.find?_cons, List.find?_cons]
      cases hb : (x.var == v) with
      | true => rfl
      | false => exact ih

/-- What one `initializeTabularCPD` call can do to a stored CPD: the variable
is kept; a `NullCPD` stays a `NullCPD` with the same cardinality and state
names (only its table is materialized); a `TabularCPD` (which has no such
attribute) is untouched. -/
def initOut (c c' : CPD) : Prop :=
  c'.var = c.var
  ∧ (∀ v card sn t, c = CPD.null v card sn t → ∃ t', c' = CPD.null v card sn t')
  ∧ (c.isTabular = true → c' = c)

theorem initOut_refl (c : CPD) : initOut c c :=
  ⟨rfl, fun _ _ _ t h => ⟨t, h⟩, fun _ => rfl⟩

theorem initOut_trans {a b c : CPD} (hab : initOut a b) (hbc : initOut b c) : initOut a c := by
  refine ⟨hbc.1.trans hab.1, ?_, ?_⟩
  · intro v card sn t ha
    obtain ⟨t', hb⟩ := hab.2.1 v card sn t ha
    obtain ⟨t'', hc⟩ := hbc.2.1 v card sn t' hb
    exact ⟨t'', hc⟩
  · intro ha
    have hb := hab.2.2 ha
    have : b.isTabular = true := by rw [hb]; exact ha
    rw [hbc.2.2 this, hb]

theorem forall₂_initOut_refl (l : List CPD) : List.Forall₂ initOut l l := by
  induction l with
  | nil => exact List.Forall₂.nil
  | cons x xs ih => exact List.Forall₂.cons (initOut_refl x) ih

theorem forall₂_initOut_trans {l1 l2 l3 : List CPD}
    (h12 : List.Forall₂ initOut l1 l2) (h23 : List.Forall₂ initOut l2 l3) :
    List.Forall₂ initOut l1 l3 := by
  induction h12 generalizing l3 with
  | nil => cases h23; exact List.Forall₂.nil
  | cons hab htail ih =>
    cases h23 with
    | cons hbc htail' => exact List.Forall₂.cons (initOut_trans hab hbc) (ih htail')

theorem forall₂_initOut_set (l : List CPD) (i : ℕ) (c c' : CPD)
    (h : l.get? i = some c) (ho : initOut c c') :
    List.Forall₂ initOut l (l.set i c') := by
  induction l generalizing i with
  | nil => simp at h
  | cons x xs ih =>
    cases i with
    | zero =>
      simp only [List.get?] at h
      injection h with h
      subst h
      exact List.Forall₂.cons ho (forall₂_initOut_refl xs)
    | succ j =>
      simp only [List.get?] at h
      exact List.Forall₂.cons (initOut_refl x) (ih j h)

theorem initializeTabularCPD_out (m : CID) (c c' : CPD) (w : List String)
    (h : c.initializeTabularCPD m = (w, Except.ok c')) : initOut c c' := by
  cases c with
  | tabular v card sn t =>
    have h2 := congrArg Prod.snd h
    simp only [CPD.initializeTabularCPD, M.pure] at h2
    injection h2 with h2
    subst h2
    exact initOut_refl _
  | null v card sn t =>
    simp only [CPD.initializeTabularCPD] at h
    obtain ⟨w₁, a, w₂, h1, h2, hw⟩ := M.bind_eq_ok h
    have h2' := congrArg Prod.snd h2
    simp only [M.pure] at h2'
    injection h2' with h2'
    subst h2'
    refine ⟨rfl, ?_, ?_⟩
    · intro v' card' sn' t' he
      injection he with e1 e2 e3 e4
      subst e1
      subst e2
      subst e3
      exact ⟨_, rfl⟩
    · intro hc
      simp [CPD.isTabular] at hc
  | func v fn ev t =>
    simp only [CPD.initializeTabularCPD] at h
    obtain ⟨w₁, a, w₂, h1, h2, hw⟩ := M.bind_eq_ok h
    have h2' := congrArg Prod.snd h2
    simp only [M.pure] at h2'
    injection h2' with h2'
    subst h2'
    refine ⟨rfl, ?_, ?_⟩
    · intro v' card' sn' t' he
      cases he
    · intro hc
      simp [CPD.isTabular] at hc

theorem initStep_out (st st' : CID) (i : ℕ) (w : List String)
    (h : CID.initStep st i = (w, Except.ok st')) :
    st'.nodes = st.nodes ∧ st'.edges = st.edges ∧ st'.decision_nodes = st.decision_nodes
    ∧ st'.utility_nodes = st.utility_nodes ∧ List.Forall₂ initOut st.cpds st'.cpds := by
  unfold CID.initStep at h
  split at h
  · have h2 := congrArg Prod.snd h
    simp only [M.pure] at h2
    injection h2 with h2
    subst h2
    exact ⟨rfl, rfl, rfl, rfl, forall₂_initOut_refl _⟩
  · have h2 := congrArg Prod.snd h
    simp only [M.pure] at h2
    injection h2 with h2
    subst h2
    exact ⟨rfl, rfl, rfl, rfl, forall₂_initOut_refl _⟩
  · rename_i c hne heq
    obtain ⟨w₁, c', w₂, h1, h2, hw⟩ := M.bind_eq_ok h
    have h2' := congrArg Prod.snd h2
    simp only [M.pure] at h2'
    injection h2' with h2'
    subst h2'
    exact ⟨rfl, rfl, rfl, rfl,
      forall₂_initOut_set _ i _ _ heq (initializeTabularCPD_out st _ _ _ h1)⟩

theorem foldInit_out : ∀ (idxs : List ℕ) (st st' : CID) (w : List String),
    M.foldList CID.initStep st idxs = (w, Except.ok st') →
    st'.nodes = st.nodes ∧ st'.edges = st.edges ∧ st'.decision_nodes = st.decision_nodes
    ∧ st'.utility_nodes = st.utility_nodes ∧ List.Forall₂ initOut st.cpds st'.cpds := by
  intro idxs
  induction idxs with
  | nil =>
    intro st st' w h
    have h2 := congrArg Prod.snd h
    simp only [M.foldList, M.pure] at h2
    injection h2 with h2
    subst h2
    exact ⟨rfl, rfl, rfl, rfl, forall₂_initOut_refl _⟩
  | cons i rest ih =>
    intro st st' w h
    simp only [M.foldList] at h
    obtain ⟨w₁, st1, w₂, h1, h2, hw⟩ := M.bind_eq_ok h
    obtain ⟨a1, a2, a3, a4, a5⟩ := initStep_out st st1 i w₁ h1
    obtain ⟨b1, b2, b3, b4, b5⟩ := ih st1 st' w₂ h2
    exact ⟨b1.trans a1, b2.trans a2, b3.trans a3, b4.trans a4, forall₂_initOut_trans a5 b5⟩

theorem initAll_out (m m' : CID) (w : List String) (h : m.initAll = (w, Except.ok m')) :
    m'.nodes = m.nodes ∧ m'.edges = m.edges ∧ m'.decision_nodes = m.decision_nodes
    ∧ m'.utility_nodes = m.utility_nodes ∧ List.Forall₂ initOut m.cpds m'.cpds :=
  foldInit_out _ m m' w h

theorem find?_var_forall₂ {l l' : List CPD} (h : List.Forall₂ initOut l l') (v : String) :
    (l.find? (fun c => c.var == v) = none → l'.find? (fun c => c.var == v) = none)
    ∧ (∀ c, l.find? (fun c => c.var == v) = some c →
        ∃ c', l'.find? (fun c => c.var == v) = some c' ∧ initOut c c') := by
  induction h with
  | nil => simp
  | @cons a b l₁ l₂ hab htail ih =>
    have hv : (b.var == v) = (a.var == v) := by rw [hab.1]
    cases ha : (a.var == v) with
    | true =>
      constructor
      · intro hn
        rw [List.find?_cons] at hn
        simp only [ha] at hn
        cases hn
      · intro c hc
        rw [List.find?_cons] at hc
        simp only [ha] at hc
        injection hc with hc
        subst hc
        refine ⟨b, ?_, hab⟩
        rw [List.find?_cons]
        simp only [hv, ha]
    | false =>
      constructor
      · intro hn
        rw [List.find?_cons] at hn
        simp only [ha] at hn
        rw [List.find?_cons]
        simp only [hv, ha]
        exact ih.1 hn
      · intro c hc
        rw [List.find?_cons] at hc
        simp only [ha] at hc
        rw [List.find?_cons]
        simp only [hv, ha]
        exact ih.2 c hc

theorem attachOne_ok (cid cid' : CID) (cpd : CPD) (w : List String)
    (h : cid.attachOne cpd = (w, Except.ok cid')) :
    cid'.nodes = cid.nodes ∧ cid'.edges = cid.edges ∧ cid'.decision_nodes = cid.decision_nodes
    ∧ cid'.utility_nodes = cid.utility_nodes ∧ cid'.cpds = (replaceCpd cid.cpds cpd).1 := by
  unfold CID.attachOne at h
  split at h
  · exact absurd (congrArg Prod.snd h) (by simp [M.throw])
  · split at h
    · rename_i newList heq
      simp only [M.bind, M.warn, M.pure] at h
      have h2 := congrArg Prod.snd h
      simp only at h2
      injection h2 with h2
      subst h2
      exact ⟨rfl, rfl, rfl, rfl, by rw [heq]⟩
    · rename_i newList heq
      have h2 := congrArg Prod.snd h
      simp only [M.pure] at h2
      injection h2 with h2
      subst h2
      exact ⟨rfl, rfl, rfl, rfl, by rw [heq]⟩

theorem attachFold_fields : ∀ (l : List CPD) (st st' : CID) (w : List String),
    M.foldList CID.attachOne st l = (w, Except.ok st') →
    st'.nodes = st.nodes ∧ st'.edges = st.edges ∧ st'.decision_nodes = st.decision_nodes
    ∧ st'.utility_nodes = st.utility_nodes := by
  intro l
  induction l with
  | nil =>
    intro st st' w h
    have h2 := congrArg Prod.snd h
    simp only [M.foldList, M.pure] at h2
    injection h2 with h2
    subst h2
    exact ⟨rfl, rfl, rfl, rfl⟩
  | cons x xs ih =>
    intro st st' w h
    simp only [M.foldList] at h
    obtain ⟨w₁, st1, w₂, h1, h2, hw⟩ := M.bind_eq_ok h
    obtain ⟨a1, a2, a3, a4, -⟩ := attachOne_ok st st1 x w₁ h1
    obtain ⟨b1, b2, b3, b4⟩ := ih st1 st' w₂ h2
    exact ⟨b1.trans a1, b2.trans a2, b3.trans a3, b4.trans a4⟩

theorem attachFold_none : ∀ (l : List CPD) (st st' : CID) (w : List String),
    M.foldList CID.attachOne st l = (w, Except.ok st') →
    ∀ v, st.get_cpds v = none → (∀ x ∈ l, x.var ≠ v) → st'.get_cpds v = none := by
  intro l
  induction l with
  | nil =>
    intro st st' w h v hv _
    have h2 := congrArg Prod.snd h
    simp only [M.foldList, M.pure] at h2
    injection h2 with h2
    subst h2
    exact hv
  | cons x xs ih =>
    intro st st' w h v hv hl
    simp only [M.foldList] at h
    obtain ⟨w₁, st1, w₂, h1, h2, hw⟩ := M.bind_eq_ok h
    obtain ⟨-, -, -, -, hc⟩ := attachOne_ok st st1 x w₁ h1
    have hx : x.var ≠ v := hl x (List.mem_cons_self x xs)
    have hst1 : st1.get_cpds v = none := by
      unfold CID.get_cpds
      rw [hc, replaceCpd_find_ne _ _ _ hx]
      exact hv
    exact ih st1 st' w₂ h2 v hst1 (fun y hy => hl y (List.mem_cons_of_mem x hy))

theorem add_cpds_ok_out (cid cid' : CID) (l : List CPD) (w : List String)
    (h : cid.add_cpds l = (w, Except.ok cid')) :
    cid'.nodes = cid.nodes ∧ cid'.edges = cid.edges ∧ cid'.decision_nodes = cid.decision_nodes
    ∧ cid'.utility_nodes = cid.utility_nodes
    ∧ ∀ v, cid.get_cpds v = none → (∀ x ∈ l, x.var ≠ v) → cid'.get_cpds v = none := by
  unfold CID.add_cpds at h
  obtain ⟨w₁, mid, w₂, h1, h2, hw⟩ := M.bind_eq_ok h
  obtain ⟨a1, a2, a3, a4⟩ := attachFold_fields l cid mid w₁ h1
  obtain ⟨b1, b2, b3, b4, b5⟩ := initAll_out mid cid' w₂ h2
  refine ⟨b1.trans a1, b2.trans a2, b3.trans a3, b4.trans a4, ?_⟩
  intro v hv hl
  have hmid : mid.get_cpds v = none := attachFold_none l cid mid w₁ h1 v hv hl
  exact (find?_var_forall₂ b5 v).1 hmid

theorem add_cpds_single_get (cid cid' : CID) (cpd : CPD) (w : List String)
    (h : cid.add_cpds [cpd] = (w, Except.ok cid'))
    (hmem : ∃ old ∈ cid.cpds, old.var = cpd.var) :
    ∃ c', cid'.get_cpds cpd.var = some c' ∧ initOut cpd c' := by
  unfold CID.add_cpds at h
  obtain ⟨w₁, mid, w₂, h1, h2, hw⟩ := M.bind_eq_ok h
  simp only [M.foldList] at h1
  obtain ⟨wa, st1, wb, ha, hb, hw1⟩ := M.bind_eq_ok h1
  have hb2 := congrArg Prod.snd hb
  simp only [M.foldList, M.pure] at hb2
  injection hb2 with hb2
  obtain ⟨-, -, -, -, hc⟩ := attachOne_ok cid st1 cpd wa ha
  obtain ⟨old, hold, hvar⟩ := hmem
  have hfind : mid.cpds.find? (fun x => x.var == cpd.var) = some cpd := by
    rw [← hb2, hc]
    exact replaceCpd_find_self _ _ _ hold hvar
  obtain ⟨-, -, -, -, hf⟩ := initAll_out mid cid' w₂ h2
  exact (find?_var_forall₂ hf cpd.var).2 cpd hfind

theorem impute_random_decision_null (cid cid' : CID) (d : String) (c : CPD) (w : List String)
    (hc : cid.get_cpds d = some c)
    (h : cid.impute_random_decision d = (w, Except.ok cid')) :
    ∃ t', cid'.get_cpds d = some (CPD.null d c.variable_card c.state_names t') := by
  unfold CID.impute_random_decision at h
  rw [hc] at h
  have hmem : ∃ old ∈ cid.cpds, old.var = (CPD.null d c.variable_card c.state_names none).var := by
    refine ⟨c, List.mem_of_find?_eq_some hc, ?_⟩
    have := List.find?_some hc
    simpa [CPD.var] using this
  obtain ⟨c', hget, hout⟩ := add_cpds_single_get cid cid' _ w h hmem
  obtain ⟨t', ht'⟩ := hout.2.1 d c.variable_card c.state_names none rfl
  exact ⟨t', by rw [← ht']; exact hget⟩

theorem impute_random_decision_missing (cid : CID) (d : String)
    (h : cid.get_cpds d = none) :
    cid.impute_random_decision d = ([], Except.error Err.attributeError) := by
  unfold CID.impute_random_decision
  rw [h]
  rfl

theorem add_edge_ok_basic (cid cid' : CID) (u v : String) (w : List String)
    (h : cid.add_edge u v = (w, Except.ok cid')) :
    cid'.cpds = cid.cpds ∧ cid'.decision_nodes = cid.decision_nodes
    ∧ cid'.utility_nodes = cid.utility_nodes := by
  unfold CID.add_edge at h
  split at h
  · exact absurd (congrArg Prod.snd h) (by simp [M.throw])
  · have h2 := congrArg Prod.snd h
    simp only [M.pure] at h2
    injection h2 with h2
    subst h2
    exact ⟨rfl, rfl, rfl⟩

theorem addEdgeFold_fields : ∀ (l : List (String × String)) (st st' : CID) (w : List String),
    M.foldList (fun c e => c.add_edge e.1 e.2) st l = (w, Except.ok st') →
    st'.cpds = st.cpds ∧ st'.decision_nodes = st.decision_nodes
    ∧ st'.utility_nodes = st.utility_nodes := by
  intro l
  induction l with
  | nil =>
    intro st st' w h
    have h2 := congrArg Prod.snd h
    simp only [M.foldList, M.pure] at h2
    injection h2 with h2
    subst h2
    exact ⟨rfl, rfl, rfl⟩
  | cons x xs ih =>
    intro st st' w h
    simp only [M.foldList] at h
    obtain ⟨w₁, st1, w₂, h1, h2, hw⟩ := M.bind_eq_ok h
    obtain ⟨a1, a2, a3⟩ := add_edge_ok_basic st st1 x.1 x.2 w₁ h1
    obtain ⟨b1, b2, b3⟩ := ih st1 st' w₂ h2
    exact ⟨b1.trans a1, b2.trans a2, b3.trans a3⟩

theorem make_out (ebunch : List (String × String)) (dn un : List String) (c : CID)
    (w : List String) (h : CID.make ebunch dn un = (w, Except.ok c)) :
    c.cpds = [] ∧ c.decision_nodes = dn ∧ c.utility_nodes = un := by
  unfold CID.make at h
  exact addEdgeFold_fields ebunch _ c w h

theorem map_CPD_copy (l : List CPD) : l.map CPD.copy = l := by
  induction l with
  | nil => rfl
  | cons x xs ih => simp [CPD.copy, ih]

theorem copy_none (cid c0 : CID) (w : List String) (h : cid.copy = (w, Except.ok c0))
    (d : String) (hd : cid.get_cpds d = none) : c0.get_cpds d = none := by
  unfold CID.copy at h
  obtain ⟨w₁, mc, w₂, h1, h2, hw⟩ := M.bind_eq_ok h
  obtain ⟨hmc, -, -⟩ := make_out cid.edges cid.decision_nodes cid.utility_nodes mc w₁ h1
  have hmcnone : mc.get_cpds d = none := by
    unfold CID.get_cpds
    rw [hmc]
    rfl
  have hvars : ∀ x ∈ cid.cpds.map CPD.copy, x.var ≠ d := by
    rw [map_CPD_copy]
    intro x hx
    have := List.find?_eq_none.mp hd x hx
    intro hvd
    exact this (by simp [hvd])
  split at h2
  · have h2' := congrArg Prod.snd h2
    simp only [M.pure] at h2'
    injection h2' with h2'
    subst h2'
    exact hmcnone
  · exact (add_cpds_ok_out mc c0 _ w₂ h2).2.2.2.2 d hmcnone hvars

theorem optimal_decisions_missing_cpd (q : Oracle) (cid : CID) (d : String) (ctx : Context)
    (hd : cid.get_cpds d = none) :
    ∃ w e, cid.optimal_decisions q d ctx = (w, Except.error e) := by
  unfold CID.optimal_decisions
  rcases hcopy : cid.copy with ⟨w₀, res⟩
  cases res with
  | error e =>
    exact ⟨w₀, e, rfl⟩
  | ok n0 =>
    have hn0 : n0.get_cpds d = none := copy_none cid n0 w₀ hcopy d hd
    refine ⟨w₀, Err.attributeError, ?_⟩
    rw [M.bind_ok_pair, impute_random_decision_missing n0 d hn0, M.bind_err_pair]
    simp

theorem M.mapList_error_of_mem {α β : Type} {f : α → M β} {l : List α} {x : α} (hx : x ∈ l)
    (hf : ∃ w e, f x = (w, Except.error e)) :
    ∃ w' e', M.mapList f l = (w', Except.error e') := by
  induction l with
  | nil => cases hx
  | cons y ys ih =>
    rcases List.mem_cons.mp hx with h | h
    · subst h
      obtain ⟨w, e, hfe⟩ := hf
      exact ⟨w, e, by simp only [M.mapList]; rw [hfe, M.bind_err_pair]⟩
    · rcases hfy : f y with ⟨wy, ry⟩
      cases ry with
      | error e => exact ⟨wy, e, by simp only [M.mapList]; rw [hfy, M.bind_err_pair]⟩
      | ok b =>
        obtain ⟨w', e', hrec⟩ := ih h
        refine ⟨wy ++ w', e', ?_⟩
        simp only [M.mapList]
        rw [hfy, M.bind_ok_pair, hrec, M.bind_err_pair]

theorem get_sp_policy_missing (q : Oracle) (c0 : CID) (d : String)
    (hd : c0.get_cpds d = none) :
    ∃ w e, c0.get_sp_policy q d = (w, Except.error e) := by
  unfold CID.get_sp_policy
  rcases hpc : c0.possible_contexts d with ⟨wp, res⟩
  cases res with
  | error e => exact ⟨wp, e, rfl⟩
  | ok contexts =>
    rw [M.bind_ok_pair]
    have hhead : ∀ ctx : Context, ∃ w e,
        M.bind (c0.optimal_decisions q d ctx) listHead = (w, Except.error e) := by
      intro ctx
      obtain ⟨w1, e1, hod⟩ := optimal_decisions_missing_cpd q c0 d ctx hd
      exact ⟨w1, e1, by rw [hod, M.bind_err_pair]⟩
    have hbranch : ∃ w e,
        (match contexts with
          | some (c :: cs) =>
            M.mapList (fun context =>
              M.bind (c0.optimal_decisions q d context) listHead) (c :: cs)
          | _ =>
            M.bind (M.bind (c0.optimal_decisions q d []) listHead) fun act =>
            M.pure [act]) = (w, Except.error e) := by
      match contexts with
      | some (c :: cs) =>
        obtain ⟨w1, e1, h1⟩ := hhead c
        obtain ⟨w', e', h'⟩ :=
          @M.mapList_error_of_mem Context ℕ
            (fun context => M.bind (c0.optimal_decisions q d context) listHead)
            (c :: cs) c (List.mem_cons_self c cs) ⟨w1, e1, h1⟩
        exact ⟨w', e', h'⟩
      | some [] =>
        obtain ⟨w1, e1, h1⟩ := hhead []
        exact ⟨w1, e1, by rw [h1, M.bind_err_pair]⟩
      | none =>
        obtain ⟨w1, e1, h1⟩ := hhead []
        exact ⟨w1, e1, by rw [h1, M.bind_err_pair]⟩
    obtain ⟨w', e', h'⟩ := hbranch
    exact ⟨wp ++ w', e', by rw [h', M.bind_err_pair]⟩

theorem solve_errors_of_missing (q : Oracle) (cid c0 : CID) (w₀ : List String) (d : String)
    (hcopy : cid.copy = (w₀, Except.ok c0))
    (hord : d ∈ c0.get_valid_order c0.decision_nodes)
    (hd : cid.get_cpds d = none) :
    ∃ w e, CID.solve q cid = (w, Except.error e) := by
  have hc0 : c0.get_cpds d = none := copy_none cid c0 w₀ hcopy d hd
  unfold CID.solve
  rw [hcopy, M.bind_ok_pair]
  have himp : ∃ w e, c0.impute_optimal_policy q = (w, Except.error e) := by
    unfold CID.impute_optimal_policy
    have hmem : d ∈ (c0.get_valid_order c0.decision_nodes).reverse := List.mem_reverse.mpr hord
    obtain ⟨wsp, esp, hsp⟩ := get_sp_policy_missing q c0 d hc0
    obtain ⟨w', e', hml⟩ := M.mapList_error_of_mem hmem ⟨wsp, esp, hsp⟩
    refine ⟨w', e', ?_⟩
    show M.bind (M.mapList (CID.get_sp_policy q c0)
      (c0.get_valid_order c0.decision_nodes).reverse) (fun policies => c0.add_cpds policies) = _
    rw [hml, M.bind_err_pair]
  obtain ⟨w', e', h'⟩ := himp
  exact ⟨w₀ ++ w', e', by rw [h', M.bind_err_pair]⟩

theorem foldIRD_error : ∀ (l : List String) (st : CID) (d : String), d ∈ l →
    st.get_cpds d = none →
    ∃ w e, M.foldList CID.impute_random_decision st l = (w, Except.error e) := by
  intro l
  induction l with
  | nil => intro st d hd; cases hd
  | cons x xs ih =>
    intro st d hd hnone
    by_cases hx : x = d
    · subst hx
      refine ⟨[], Err.attributeError, ?_⟩
      simp only [M.foldList]
      rw [impute_random_decision_missing st x hnone, M.bind_err_pair]
    · have hdxs : d ∈ xs := by
        rcases List.mem_cons.mp hd with h | h
        · exact absurd h.symm hx
        · exact h
      rcases hi : st.impute_random_decision x with ⟨wi, ri⟩
      cases ri with
      | error e =>
        exact ⟨wi, e, by simp only [M.foldList]; rw [hi, M.bind_err_pair]⟩
      | ok st1 =>
        have hst1 : st1.get_cpds d = none := by
          unfold CID.impute_random_decision at hi
          rcases hg : st.get_cpds x with _ | c
          · rw [hg] at hi
            exact absurd (congrArg Prod.snd hi) (by simp [M.throw])
          · rw [hg] at hi
            refine (add_cpds_ok_out st st1 _ wi hi).2.2.2.2 d hnone ?_
            intro y hy
            rcases List.mem_singleton.mp hy with rfl
            simpa [CPD.var] using Ne.symm (hx ·.symm)
        obtain ⟨w', e', h'⟩ := ih st1 d hdxs hst1
        refine ⟨wi ++ w', e', ?_⟩
        simp only [M.foldList]
        rw [hi, M.bind_ok_pair, h']

theorem impute_random_policy_errors (cid : CID) (d : String)
    (hd : d ∈ cid.decision_nodes) (hnone : cid.get_cpds d = none) :
    ∃ w e, cid.impute_random_policy = (w, Except.error e) :=
  foldIRD_error cid.decision_nodes cid d hd hnone

/-- A model whose decision node `D` has no attached CPD. -/
def cidC9 : CID :=
  { nodes := ["D", "U"]
    edges := [("D", "U")]
    decision_nodes := ["D"]
    utility_nodes := ["U"]
    cpds :=
      [CPD.tabular "U" 2 [("U", [0, 1]), ("D", [0, 1])]
        { values := [[some 1, some 0], [some 0, some 1]],
          evidence := ["D"], evidence_card := [2] }] }

/-- C9.  `impute_random_decision(d)` replaces an attached distribution with a
`NullCPD` of the same cardinality and the same state names; when `d` has no
attached distribution it raises `AttributeError` (`get_cpds` returns `None`),
and consequently every solver trial evaluation (`_optimal_decisions`),
`impute_random_policy()` and `solve()` fail as soon as a decision without an
attached distribution is processed. -/
theorem impute_random_decision_contract :
    (∀ (cid cid' : CID) (d : String) (c : CPD) (w : List String),
        cid.get_cpds d = some c → cid.impute_random_decision d = (w, Except.ok cid') →
        ∃ t', cid'.get_cpds d = some (CPD.null d c.variable_card c.state_names t'))
    ∧ (∀ (cid : CID) (d : String), cid.get_cpds d = none →
        cid.impute_random_decision d = ([], Except.error Err.attributeError))
    ∧ (∀ (q : Oracle) (cid : CID) (d : String) (ctx : Context), cid.get_cpds d = none →
        ∃ w e, cid.optimal_decisions q d ctx = (w, Except.error e))
    ∧ (∀ (cid : CID) (d : String), d ∈ cid.decision_nodes → cid.get_cpds d = none →
        ∃ w e, cid.impute_random_policy = (w, Except.error e))
    ∧ (∀ (q : Oracle) (cid c0 : CID) (w₀ : List String) (d : String),
        cid.copy = (w₀, Except.ok c0) → d ∈ c0.get_valid_order c0.decision_nodes →
        cid.get_cpds d = none → ∃ w e, CID.solve q cid = (w, Except.error e)) :=
  ⟨fun cid cid' d c w hc h => impute_random_decision_null cid cid' d c w hc h,
   fun cid d h => impute_random_decision_missing cid d h,
   fun q cid d ctx h => optimal_decisions_missing_cpd q cid d ctx h,
   fun cid d hd h => impute_random_policy_errors cid d hd h,
   fun q cid c0 w₀ d hcopy hord hd => solve_errors_of_missing q cid c0 w₀ d hcopy hord hd⟩

theorem impute_random_decision_contract_witness :
    (∃ t', cidC1.get_cpds "D1" = some (CPD.null "D1" 2 [("D1", [0, 1])] t'))
    ∧ cidC9.impute_random_decision "D" = ([], Except.error Err.attributeError)
    ∧ (∃ w e, cidC9.optimal_decisions enumQuery "D" [] = (w, Except.error e))
    ∧ (∃ w e, cidC9.impute_random_policy = (w, Except.error e))
    ∧ (∃ w e, CID.solve enumQuery cidC9 = (w, Except.error e)) :=
  ⟨impute_random_decision_contract.1 cidC1 cidC1 "D1"
     (CPD.null "D1" 2 [("D1", [0, 1])]
       (some { values := [[some (1/2)], [some (1/2)]], evidence := [], evidence_card := [] }))
     ["Replacing existing CPD for D1"] (by with_unfolding_all rfl) (by with_unfolding_all rfl),
   impute_random_decision_contract.2.1 cidC9 "D" (by with_unfolding_all rfl),
   impute_random_decision_contract.2.2.1 enumQuery cidC9 "D" [] (by with_unfolding_all rfl),
   impute_random_decision_contract.2.2.2.1 cidC9 "D" (by decide) (by with_unfolding_all rfl),
   impute_random_decision_contract.2.2.2.2 enumQuery cidC9 cidC9 [] "D"
     (by with_unfolding_all rfl) (by decide) (by with_unfolding_all rfl)⟩

theorem initStep_tabular (m : CID) (i : ℕ) (h : ∀ x ∈ m.cpds, x.isTabular = true) :
    CID.initStep m i = M.pure m := by
  unfold CID.initStep
  rcases hg : m.cpds.get? i with _ | c
  · rfl
  · have hc := h c (List.get?_mem hg)
    cases c with
    | tabular v card sn t => rfl
    | null v card sn t => simp [CPD.isTabular] at hc
    | func v fn ev t => simp [CPD.isTabular] at hc

theorem foldInit_tabular : ∀ (idxs : List ℕ) (m : CID),
    (∀ x ∈ m.cpds, x.isTabular = true) →
    M.foldList CID.initStep m idxs = M.pure m := by
  intro idxs
  induction idxs with
  | nil => intro m _; rfl
  | cons i rest ih =>
    intro m h
    simp only [M.foldList]
    rw [initStep_tabular m i h, M.bind_pure]
    exact ih m h

theorem initAll_tabular (m : CID) (h : ∀ x ∈ m.cpds, x.isTabular = true) :
    m.initAll = M.pure m :=
  foldInit_tabular _ m h

/-- C7 amended.  Attaching a distribution for a variable that already has one
does not raise: the first existing entry for that variable is replaced by the
new one (last write wins) and the overwrite warning is emitted, and the
entries of every other variable are kept in the attached list.  After the
replacement, `add_cpds`' materialization pass re-runs `initializeTabularCPD`
on every Placeholder/Functional distribution against the updated model — so
other variables' distributions are literally unchanged when they are Tabular
(the stated model here), but a Placeholder/Functional distribution of another
variable can change (see the counterexample). -/
theorem add_cpds_duplicate_last_write_wins (cid : CID) (cpd old : CPD)
    (hscope : ∀ v ∈ cpd.scope, v ∈ cid.nodes)
    (hold : old ∈ cid.cpds) (hvar : old.var = cpd.var)
    (htab : ∀ x ∈ cid.cpds, x.isTabular = true) (htabc : cpd.isTabular = true) :
    cid.add_cpds [cpd] =
      (["Replacing existing CPD for " ++ cpd.var],
       Except.ok { cid with cpds := (replaceCpd cid.cpds cpd).1 })
    ∧ ({ cid with cpds := (replaceCpd cid.cpds cpd).1 } : CID).get_cpds cpd.var = some cpd
    ∧ (∀ x ∈ cid.cpds, x.var ≠ cpd.var → x ∈ (replaceCpd cid.cpds cpd).1) := by
  have hrep2 : (replaceCpd cid.cpds cpd).2 = true := replaceCpd_snd_true_of_mem _ _ _ hold hvar
  have hattach : cid.attachOne cpd =
      (["Replacing existing CPD for " ++ cpd.var],
       Except.ok ({ cid with cpds := (replaceCpd cid.cpds cpd).1 } : CID)) := by
    unfold CID.attachOne
    rw [if_neg (not_not_intro hscope)]
    rcases hrp : replaceCpd cid.cpds cpd with ⟨nl, b⟩
    rw [hrp] at hrep2
    simp only at hrep2
    subst hrep2
    simp [M.bind, M.warn, M.pure]
  have htabrep : ∀ x ∈ (replaceCpd cid.cpds cpd).1, x.isTabular = true := by
    intro x hx
    rcases replaceCpd_mem cid.cpds cpd x hx with h | h
    · exact htab x h
    · subst h; exact htabc
  have hfold : M.foldList CID.attachOne cid [cpd] =
      (["Replacing existing CPD for " ++ cpd.var],
       Except.ok ({ cid with cpds := (replaceCpd cid.cpds cpd).1 } : CID)) := by
    simp only [M.foldList]
    rw [hattach, M.bind_ok_pair]
    simp [M.foldList, M.pure]
  refine ⟨?_, ?_, replaceCpd_preserves cid.cpds cpd⟩
  · unfold CID.add_cpds
    rw [hfold, M.bind_ok_pair, initAll_tabular _ htabrep]
    simp [M.pure]
  · unfold CID.get_cpds
    exact replaceCpd_find_self _ _ _ hold hvar

/-- A model holding a Tabular chance node `D1` and an (already materialized)
Placeholder decision `D2` whose table reads `D1`'s cardinality. -/
def cidC7 : CID :=
  { nodes := ["D1", "D2"]
    edges := [("D1", "D2")]
    decision_nodes := ["D2"]
    utility_nodes := []
    cpds :=
      [CPD.tabular "D1" 2 [("D1", [0, 1])]
        { values := [[some (1/2)], [some (1/2)]], evidence := [], evidence_card := [] },
       CPD.null "D2" 2 [("D2", [0, 1])]
        (some { values := [[some (1/2), some (1/2)], [some (1/2), some (1/2)]],
                evidence := ["D1"], evidence_card := [2] })] }

/-- A replacement CPD for `D1` with a different cardinality. -/
def cpdC7new : CPD :=
  CPD.tabular "D1" 3 [("D1", [0, 1, 2])]
    { values := [[some (1/3)], [some (1/3)], [some (1/3)]], evidence := [], evidence_card := [] }

/-- C7 counterexample.  Replacing `D1`'s distribution succeeds with the
overwrite warning, but `D2`'s distribution — another variable's — does *not*
remain unchanged: the materialization pass rebuilds the Placeholder's table
against `D1`'s new cardinality (2 columns before, 3 after). -/
theorem add_cpds_changes_other_variable :
    (cidC7.add_cpds [cpdC7new]).1 = ["Replacing existing CPD for D1"]
    ∧ ((cidC7.add_cpds [cpdC7new]).2.toOption.bind
        (fun c => (c.get_cpds "D2").map (fun x => x.valuesOf.map List.length)))
        = some [3, 3]
    ∧ (cidC7.get_cpds "D2").map (fun x => x.valuesOf.map List.length) = some [2, 2]
    ∧ ([3, 3] : List ℕ) ≠ [2, 2] :=
  ⟨by with_unfolding_all rfl, by with_unfolding_all rfl, by with_unfolding_all rfl, by decide⟩

theorem add_cpds_duplicate_last_write_wins_witness :
    cidC3.add_cpds [CPD.tabular "D" 2 [("D", [0, 1])]
        { values := [[some 1], [some 0]], evidence := [], evidence_card := [] }] =
      (["Replacing existing CPD for D"],
       Except.ok { cidC3 with cpds := (replaceCpd cidC3.cpds
         (CPD.tabular "D" 2 [("D", [0, 1])]
           { values := [[some 1], [some 0]], evidence := [], evidence_card := [] })).1 }) :=
  (add_cpds_duplicate_last_write_wins cidC3
    (CPD.tabular "D" 2 [("D", [0, 1])]
      { values := [[some 1], [some 0]], evidence := [], evidence_card := [] })
    (CPD.tabular "D" 2 [("D", [0, 1])]
      { values := [[some (1/2)], [some (1/2)]], evidence := [], evidence_card := [] })
    (by decide) (by constructor) (by with_unfolding_all rfl)
    (by decide) (by with_unfolding_all rfl)).1

theorem add_edge_ok_full (cid cid' : CID) (u v : String) (w : List String)
    (h : cid.add_edge u v = (w, Except.ok cid')) :
    w = [] ∧ cid'.cpds = cid.cpds ∧ cid'.decision_nodes = cid.decision_nodes
    ∧ cid'.utility_nodes = cid.utility_nodes
    ∧ cid'.edges = (if (u, v) ∈ cid.edges then cid.edges else cid.edges ++ [(u, v)])
    ∧ (∀ n, n ∈ cid'.nodes ↔ n ∈ cid.nodes ∨ n = u ∨ n = v) := by
  unfold CID.add_edge at h
  split at h
  · exact absurd (congrArg Prod.snd h) (by simp [M.throw])
  · have hfst := congrArg Prod.fst h
    simp only [M.pure] at hfst
    have hsnd := congrArg Prod.snd h
    simp only [M.pure] at hsnd
    injection hsnd with hsnd
    subst hsnd
    refine ⟨hfst.symm, rfl, rfl, rfl, rfl, ?_⟩
    intro n
    by_cases hu : u ∈ cid.nodes <;> by_cases hv : v ∈ cid.nodes <;>
      by_cases hvu : v = u <;>
      simp [hu, hv, hvu, List.mem_append] <;> aesop

theorem list_set_self {α : Type} (l : List α) (i : ℕ) (a : α)
    (h : l.get? i = some a) : l.set i a = l := by
  induction l generalizing i with
  | nil => simp at h
  | cons x xs ih =>
    cases i with
    | zero =>
      simp only [List.get?] at h
      injection h with h
      subst h
      rfl
    | succ j =>
      simp only [List.get?] at h
      simp [List.set, ih j h]

theorem initAll_stable (m : CID)
    (h : ∀ x ∈ m.cpds, x.initializeTabularCPD m = M.pure x) :
    m.initAll = M.pure m := by
  have hstep : ∀ i, CID.initStep m i = M.pure m := by
    intro i
    unfold CID.initStep
    rcases hg : m.cpds.get? i with _ | c
    · rfl
    · cases c with
      | tabular v card sn t => rfl
      | null v card sn t =>
        show M.bind (CPD.initializeTabularCPD m (CPD.null v card sn t))
          (fun c' => M.pure { m with cpds := m.cpds.set i c' }) = M.pure m
        rw [h _ (List.get?_mem hg), M.bind_pure, list_set_self _ _ _ hg]
      | func v fn ev t =>
        show M.bind (CPD.initializeTabularCPD m (CPD.func v fn ev t))
          (fun c' => M.pure { m with cpds := m.cpds.set i c' }) = M.pure m
        rw [h _ (List.get?_mem hg), M.bind_pure, list_set_self _ _ _ hg]
  have : ∀ idxs : List ℕ, M.foldList CID.initStep m idxs = M.pure m := by
    intro idxs
    induction idxs with
    | nil => rfl
    | cons i rest ih =>
      simp only [M.foldList]
      rw [hstep i, M.bind_pure, ih]
  exact this _

theorem addEdgeFold_out : ∀ (l : List (String × String)) (st st' : CID) (w : List String),
    M.foldList (fun c e => c.add_edge e.1 e.2) st l = (w, Except.ok st') →
    l.Nodup → (∀ e ∈ l, e ∉ st.edges) →
    st'.edges = st.edges ++ l
    ∧ (∀ n, n ∈ st'.nodes ↔ n ∈ st.nodes ∨ ∃ e ∈ l, n = e.1 ∨ n = e.2) := by
  intro l
  induction l with
  | nil =>
    intro st st' w h _ _
    have h2 := congrArg Prod.snd h
    simp only [M.foldList, M.pure] at h2
    injection h2 with h2
    subst h2
    simp
  | cons e rest ih =>
    intro st st' w h hnd hfresh
    simp only [M.foldList] at h
    obtain ⟨w₁, st1, w₂, h1, h2, hw⟩ := M.bind_eq_ok h
    obtain ⟨-, -, -, -, hedges, hnodes⟩ := add_edge_ok_full st st1 e.1 e.2 w₁ h1
    have he : e ∉ st.edges := hfresh e (List.mem_cons_self e rest)
    have hedges1 : st1.edges = st.edges ++ [e] := by
      rw [hedges, if_neg he]
    have hfresh1 : ∀ e' ∈ rest, e' ∉ st1.edges := by
      intro e' he'
      rw [hedges1]
      intro hmem
      rcases List.mem_append.mp hmem with hmem | hmem
      · exact hfresh e' (List.mem_cons_of_mem e he') hmem
      · rcases List.mem_singleton.mp hmem with rfl
        exact (List.nodup_cons.mp hnd).1 he'
    obtain ⟨hed, hno⟩ := ih st1 st' w₂ h2 (List.nodup_cons.mp hnd).2 hfresh1
    constructor
    · rw [hed, hedges1, List.append_assoc]
      rfl
    · intro n
      rw [hno n, hnodes n]
      constructor
      · rintro ((hn | rfl | rfl) | ⟨e', he', hend⟩)
        · exact Or.inl hn
        · exact Or.inr ⟨e, List.mem_cons_self e rest, Or.inl rfl⟩
        · exact Or.inr ⟨e, List.mem_cons_self e rest, Or.inr rfl⟩
        · exact Or.inr ⟨e', List.mem_cons_of_mem e he', hend⟩
      · rintro (hn | ⟨e', he', hend⟩)
        · exact Or.inl (Or.inl hn)
        · rcases List.mem_cons.mp he' with rfl | he'
          · rcases hend with rfl | rfl
            · exact Or.inl (Or.inr (Or.inl rfl))
            · exact Or.inl (Or.inr (Or.inr rfl))
          · exact Or.inr ⟨e', he', hend⟩

theorem make_ok_out (ebunch : List (String × String)) (dn un : List String) (c : CID)
    (w : List String) (h : CID.make ebunch dn un = (w, Except.ok c))
    (hnd : ebunch.Nodup) :
    c.edges = ebunch ∧ c.cpds = [] ∧ c.decision_nodes = dn ∧ c.utility_nodes = un
    ∧ (∀ n, n ∈ c.nodes ↔ ∃ e ∈ ebunch, n = e.1 ∨ n = e.2) := by
  have hbase := make_out ebunch dn un c w h
  unfold CID.make at h
  obtain ⟨hed, hno⟩ := addEdgeFold_out ebunch _ c w h hnd (by intro e _ he; cases he)
  refine ⟨by simpa using hed, hbase.1, hbase.2.1, hbase.2.2, ?_⟩
  intro n
  rw [hno n]
  simp

theorem attachOne_nomatch (cid cid' : CID) (cpd : CPD) (w : List String)
    (h : cid.attachOne cpd = (w, Except.ok cid'))
    (hnm : ∀ y ∈ cid.cpds, y.var ≠ cpd.var) :
    w = [] ∧ cid' = { cid with cpds := cid.cpds ++ [cpd] } := by
  unfold CID.attachOne at h
  split at h
  · exact absurd (congrArg Prod.snd h) (by simp [M.throw])
  · rw [replaceCpd_no_match cid.cpds cpd hnm] at h
    have hfst := congrArg Prod.fst h
    simp only [M.pure] at hfst
    have hsnd := congrArg Prod.snd h
    simp only [M.pure] at hsnd
    injection hsnd with hsnd
    exact ⟨hfst.symm, hsnd.symm⟩

theorem attachFold_append : ∀ (l : List CPD) (st st' : CID) (w : List String),
    M.foldList CID.attachOne st l = (w, Except.ok st') →
    (∀ x ∈ l, ∀ y ∈ st.cpds, y.var ≠ x.var) → (l.map CPD.var).Nodup →
    st'.cpds = st.cpds ++ l ∧ st'.nodes = st.nodes ∧ st'.edges = st.edges
    ∧ st'.decision_nodes = st.decision_nodes ∧ st'.utility_nodes = st.utility_nodes := by
  intro l
  induction l with
  | nil =>
    intro st st' w h _ _
    have h2 := congrArg Prod.snd h
    simp only [M.foldList, M.pure] at h2
    injection h2 with h2
    subst h2
    simp
  | cons x xs ih =>
    intro st st' w h hnm hnd
    simp only [M.foldList] at h
    obtain ⟨w₁, st1, w₂, h1, h2, hw⟩ := M.bind_eq_ok h
    obtain ⟨-, hst1⟩ := attachOne_nomatch st st1 x w₁ h1
      (fun y hy => hnm x (List.mem_cons_self x xs) y hy)
    subst hst1
    have hnd' : x.var ∉ xs.map CPD.var ∧ (xs.map CPD.var).Nodup := by
      rw [List.map_cons, List.nodup_cons] at hnd
      exact hnd
    have hnm1 : ∀ x' ∈ xs, ∀ y ∈ st.cpds ++ [x], y.var ≠ x'.var := by
      intro x' hx' y hy
      rcases List.mem_append.mp hy with hy | hy
      · exact hnm x' (List.mem_cons_of_mem x hx') y hy
      · rcases List.mem_singleton.mp hy with rfl
        intro hcontra
        exact hnd'.1 (hcontra ▸ List.mem_map_of_mem CPD.var hx')
    obtain ⟨c1, c2, c3, c4, c5⟩ := ih _ st' w₂ h2 hnm1 hnd'.2
    exact ⟨by rw [c1]; simp, c2, c3, c4, c5⟩

/-- C10.  `copy()` rebuilds the model from the edge list alone, so when every
node is an endpoint of some edge (and the model is well-formed: duplicate-free
edge list with endpoints among the nodes, distinct CPD variables, and already
materialized CPDs, i.e. re-materialization against an identical graph and CPD
list is the identity), a successful copy has the same edge list, the same
decision- and utility-node lists, a copy of every attached distribution, and
the same node set. -/
theorem copy_faithful (cid c' : CID) (w : List String)
    (h : cid.copy = (w, Except.ok c'))
    (hnd : cid.edges.Nodup)
    (hvars : (cid.cpds.map CPD.var).Nodup)
    (hstable : ∀ x ∈ cid.cpds, ∀ m : CID, m.edges = cid.edges → m.cpds = cid.cpds →
        x.initializeTabularCPD m = M.pure x)
    (hwf : ∀ e ∈ cid.edges, e.1 ∈ cid.nodes ∧ e.2 ∈ cid.nodes)
    (hnoiso : ∀ n ∈ cid.nodes, ∃ e ∈ cid.edges, n = e.1 ∨ n = e.2) :
    c'.edges = cid.edges ∧ c'.decision_nodes = cid.decision_nodes
    ∧ c'.utility_nodes = cid.utility_nodes ∧ c'.cpds = cid.cpds
    ∧ (∀ n, n ∈ c'.nodes ↔ n ∈ cid.nodes) := by
  unfold CID.copy at h
  obtain ⟨w₁, mc, w₂, h1, h2, hw⟩ := M.bind_eq_ok h
  obtain ⟨me, mcp, mdn, mun, mno⟩ :=
    make_ok_out cid.edges cid.decision_nodes cid.utility_nodes mc w₁ h1 hnd
  have hmem_iff : ∀ n, n ∈ mc.nodes ↔ n ∈ cid.nodes := by
    intro n
    rw [mno n]
    constructor
    · rintro ⟨e, he, rfl | rfl⟩
      · exact (hwf e he).1
      · exact (hwf e he).2
    · exact hnoiso n
  split at h2
  · rename_i hempty
    have h2' := congrArg Prod.snd h2
    simp only [M.pure] at h2'
    injection h2' with h2'
    subst h2'
    refine ⟨me, mdn, mun, ?_, hmem_iff⟩
    rw [mcp, List.isEmpty_iff.mp hempty]
  · unfold CID.add_cpds at h2
    rw [map_CPD_copy] at h2
    obtain ⟨wa, mid, wb, ha, hb, hw2⟩ := M.bind_eq_ok h2
    obtain ⟨c1, c2, c3, c4, c5⟩ := attachFold_append cid.cpds mc mid wa ha
      (by intro x _ y hy; rw [mcp] at hy; cases hy) hvars
    have hmidcpds : mid.cpds = cid.cpds := by rw [c1, mcp]; rfl
    have hmidedges : mid.edges = cid.edges := by rw [c3, me]
    have hstable_mid : ∀ x ∈ mid.cpds, x.initializeTabularCPD mid = M.pure x := by
      intro x hx
      exact hstable x (hmidcpds ▸ hx) mid hmidedges hmidcpds
    rw [initAll_stable mid hstable_mid] at hb
    have hb' := congrArg Prod.snd hb
    simp only [M.pure] at hb'
    injection hb' with hb'
    subst hb'
    exact ⟨hmidedges, c4.trans mdn, c5.trans mun, hmidcpds, fun n => (by rw [c2]; exact hmem_iff n)⟩

theorem copy_faithful_witness :
    cidC1.copy = ([], Except.ok cidC1)
    ∧ (cidC1.edges = cidC1.edges ∧ cidC1.decision_nodes = cidC1.decision_nodes
       ∧ cidC1.utility_nodes = cidC1.utility_nodes ∧ cidC1.cpds = cidC1.cpds
       ∧ (∀ n, n ∈ cidC1.nodes ↔ n ∈ cidC1.nodes)) := by
  have hstable : ∀ x ∈ cidC1.cpds, ∀ m : CID, m.edges = cidC1.edges → m.cpds = cidC1.cpds →
      x.initializeTabularCPD m = M.pure x := by
    intro x hx m he hc
    have hpf : CID.get_parents m = CID.get_parents cidC1 := by
      funext v
      unfold CID.get_parents
      rw [he]
    have hgf : CID.get_cardinalityM m = CID.get_cardinalityM cidC1 := by
      funext v
      unfold CID.get_cardinalityM CID.get_cpds
      rw [hc]
    fin_cases hx
    · show CPD.initializeTabularCPD m (CPD.null "D1" 2 [("D1", [0, 1])] _) = _
      unfold CPD.initializeTabularCPD
      rw [hpf, hgf]
      with_unfolding_all rfl
    · show CPD.initializeTabularCPD m (CPD.null "D2" 2 [("D2", [0, 1])] _) = _
      unfold CPD.initializeTabularCPD
      rw [hpf, hgf]
      with_unfolding_all rfl
    · rfl
  refine ⟨by with_unfolding_all rfl, ?_⟩
  exact copy_faithful cidC1 cidC1 [] (by with_unfolding_all rfl) (by decide) (by decide)
    hstable (by decide) (by decide)

/-- The per-triple blocked condition of the recall check: on the copy with the
marker edge `pi → d1` added, conditioning on `parents(d2) ∪ {d2}` leaves no
active trail from `pi` to `u`. -/
def srBlocked (active : ActiveTrail) (c0 : CID) (d1 d2 u : String) : Prop :=
  ∀ cwp, c0.add_edge "pi" d1 = M.pure cwp →
    active cwp "pi" u (cwp.get_parents d2 ++ [d2]) = false

/-- The complementary condition: some active trail remains. -/
def srActive (active : ActiveTrail) (c0 : CID) (d1 d2 u : String) : Prop :=
  ∀ cwp, c0.add_edge "pi" d1 = M.pure cwp →
    active cwp "pi" u (cwp.get_parents d2 ++ [d2]) = true

theorem M_pure_inj {α : Type} {a b : α} (h : M.pure a = M.pure b) : a = b := by
  have h2 := congrArg Prod.snd h
  simp only [M.pure] at h2
  injection h2

theorem pi_add_edge_ok (c0 : CID) (d1 : String) (h2 : "pi" ∉ c0.nodes) (hd1 : d1 ≠ "pi") :
    ∃ cwp, c0.add_edge "pi" d1 = M.pure cwp := by
  unfold CID.add_edge
  rw [if_neg]
  · exact ⟨_, rfl⟩
  · rintro (hc | hc)
    · exact hd1 hc.symm
    · exact h2 hc.1

theorem topoSortAux_subset (edges : List (String × String)) :
    ∀ (fuel : ℕ) (rem : List String) (x : String),
      x ∈ topoSortAux edges fuel rem → x ∈ rem := by
  intro fuel
  induction fuel with
  | zero => intro rem x hx; cases hx
  | succ n ih =>
    intro rem x hx
    simp only [topoSortAux] at hx
    split at hx
    · cases hx
    · rcases List.mem_append.mp hx with hx | hx
      · exact List.mem_of_mem_filter hx
      · exact List.mem_of_mem_filter (ih _ x hx)

theorem get_valid_order_subset_nodes (cid : CID) (ns : List String) :
    ∀ x ∈ cid.get_valid_order ns, x ∈ cid.nodes := by
  intro x hx
  unfold CID.get_valid_order at hx
  exact topoSortAux_subset cid.edges _ cid.nodes x (List.mem_of_mem_filter hx)

theorem sr_loop_u_cases (active : ActiveTrail) (cid c0 cwp0 : CID) (d1 d2 : String)
    (h1 : cid.copy = M.pure c0)
    (hcwp0 : c0.add_edge "pi" d1 = M.pure cwp0) :
    ∀ us : List String,
    (cid.sr_loop_u active d1 d2 us = M.pure true
      ∧ ∀ u ∈ us, d2 ∈ cid.get_ancestors_of u →
          active cwp0 "pi" u (cwp0.get_parents d2 ++ [d2]) = false)
    ∨ (∃ u ∈ us, d2 ∈ cid.get_ancestors_of u
        ∧ active cwp0 "pi" u (cwp0.get_parents d2 ++ [d2]) = true
        ∧ cid.sr_loop_u active d1 d2 us = ([recallWarning d2 d1 u], Except.ok false)) := by
  intro us
  induction us with
  | nil => exact Or.inl ⟨rfl, by simp⟩
  | cons u rest ih =>
    by_cases hanc : d2 ∈ cid.get_ancestors_of u
    · have hred : cid.sr_loop_u active d1 d2 (u :: rest) =
          (if active cwp0 "pi" u (cwp0.get_parents d2 ++ [d2]) then
            M.bind (M.warn (recallWarning d2 d1 u)) (fun _ => M.pure false)
          else cid.sr_loop_u active d1 d2 rest) := by
        simp only [CID.sr_loop_u]
        rw [if_pos hanc, h1, M.bind_pure, hcwp0, M.bind_pure]
      cases hact : active cwp0 "pi" u (cwp0.get_parents d2 ++ [d2]) with
      | true =>
        refine Or.inr ⟨u, List.mem_cons_self u rest, hanc, hact, ?_⟩
        rw [hred, if_pos hact]
        simp [M.bind, M.warn, M.pure]
      | false =>
        rcases ih with ⟨hpure, hall⟩ | ⟨u', hm, hcond, hact', hres⟩
        · refine Or.inl ⟨by rw [hred, if_neg (by simp [hact]), hpure], ?_⟩
          intro u' hu' hc'
          rcases List.mem_cons.mp hu' with rfl | hu'
          · exact hact
          · exact hall u' hu' hc'
        · exact Or.inr ⟨u', List.mem_cons_of_mem u hm, hcond, hact',
            by rw [hred, if_neg (by simp [hact]), hres]⟩
    · have hred : cid.sr_loop_u active d1 d2 (u :: rest) =
          cid.sr_loop_u active d1 d2 rest := by
        simp only [CID.sr_loop_u]
        rw [if_neg hanc]
      rcases ih with ⟨hpure, hall⟩ | ⟨u', hm, hcond, hact', hres⟩
      · refine Or.inl ⟨by rw [hred, hpure], ?_⟩
        intro u' hu' hc'
        rcases List.mem_cons.mp hu' with rfl | hu'
        · exact absurd hc' hanc
        · exact hall u' hu' hc'
      · exact Or.inr ⟨u', List.mem_cons_of_mem u hm, hcond, hact', by rw [hred, hres]⟩

theorem srBlocked_iff (active : ActiveTrail) (c0 cwp0 : CID) (d1 d2 u : String)
    (hcwp0 : c0.add_edge "pi" d1 = M.pure cwp0) :
    srBlocked active c0 d1 d2 u ↔
      active cwp0 "pi" u (cwp0.get_parents d2 ++ [d2]) = false := by
  constructor
  · intro hb
    exact hb cwp0 hcwp0
  · intro hf cwp heq
    have : cwp0 = cwp := M_pure_inj (hcwp0 ▸ heq)
    rw [← this]
    exact hf

theorem srActive_iff (active : ActiveTrail) (c0 cwp0 : CID) (d1 d2 u : String)
    (hcwp0 : c0.add_edge "pi" d1 = M.pure cwp0) :
    srActive active c0 d1 d2 u ↔
      active cwp0 "pi" u (cwp0.get_parents d2 ++ [d2]) = true := by
  constructor
  · intro hb
    exact hb cwp0 hcwp0
  · intro hf cwp heq
    have : cwp0 = cwp := M_pure_inj (hcwp0 ▸ heq)
    rw [← this]
    exact hf

theorem sr_loop_d2_cases (active : ActiveTrail) (cid c0 : CID) (d1 : String)
    (h1 : cid.copy = M.pure c0) (h2 : "pi" ∉ c0.nodes) (hd1 : d1 ≠ "pi") :
    ∀ d2s : List String,
    (cid.sr_loop_d2 active d1 d2s = M.pure true
      ∧ ∀ d2 ∈ d2s, ∀ u ∈ cid.utility_nodes, d2 ∈ cid.get_ancestors_of u →
          srBlocked active c0 d1 d2 u)
    ∨ (∃ d2 ∈ d2s, ∃ u ∈ cid.utility_nodes, d2 ∈ cid.get_ancestors_of u
        ∧ srActive active c0 d1 d2 u
        ∧ cid.sr_loop_d2 active d1 d2s = ([recallWarning d2 d1 u], Except.ok false)) := by
  obtain ⟨cwp0, hcwp0⟩ := pi_add_edge_ok c0 d1 h2 hd1
  intro d2s
  induction d2s with
  | nil => exact Or.inl ⟨rfl, by simp⟩
  | cons d2 rest ih =>
    have hred : cid.sr_loop_d2 active d1 (d2 :: rest) =
        M.bind (cid.sr_loop_u active d1 d2 cid.utility_nodes)
          (fun b => if b then cid.sr_loop_d2 active d1 rest else M.pure false) := rfl
    rcases sr_loop_u_cases active cid c0 cwp0 d1 d2 h1 hcwp0 cid.utility_nodes with
      ⟨hpure, hall⟩ | ⟨u, hu, hcond, hact, hres⟩
    · rcases ih with ⟨hp2, hall2⟩ | ⟨d2', hm, u', hu', hcond', hact', hres'⟩
      · refine Or.inl ⟨by rw [hred, hpure, M.bind_pure, if_pos rfl, hp2], ?_⟩
        intro d2' hd2' u hu hc
        rcases List.mem_cons.mp hd2' with rfl | hd2'
        · exact (srBlocked_iff active c0 cwp0 d1 d2' u hcwp0).mpr (hall u hu hc)
        · exact hall2 d2' hd2' u hu hc
      · refine Or.inr ⟨d2', List.mem_cons_of_mem d2 hm, u', hu', hcond', hact', ?_⟩
        rw [hred, hpure, M.bind_pure, if_pos rfl, hres']
    · refine Or.inr ⟨d2, List.mem_cons_self d2 rest, u, hu, hcond,
        (srActive_iff active c0 cwp0 d1 d2 u hcwp0).mpr hact, ?_⟩
      rw [hred, hres]
      simp [M.bind, M.pure]

theorem orderedPairs_mem_cons {α : Type} (x : α) (xs : List α) (p : α × α) :
    p ∈ orderedPairs (x :: xs) ↔ (∃ y ∈ xs, p = (x, y)) ∨ p ∈ orderedPairs xs := by
  simp only [orderedPairs, List.mem_append, List.mem_map]
  constructor
  · rintro (⟨y, hy, rfl⟩ | h)
    · exact Or.inl ⟨y, hy, rfl⟩
    · exact Or.inr h
  · rintro (⟨y, hy, rfl⟩ | h)
    · exact Or.inl ⟨y, hy, rfl⟩
    · exact Or.inr h

theorem sr_loop_d1_cases (active : ActiveTrail) (cid c0 : CID)
    (h1 : cid.copy = M.pure c0) (h2 : "pi" ∉ c0.nodes) :
    ∀ d1s : List String, (∀ d ∈ d1s, d ≠ "pi") →
    (cid.sr_loop_d1 active d1s = M.pure true
      ∧ ∀ p ∈ orderedPairs d1s, ∀ u ∈ cid.utility_nodes, p.2 ∈ cid.get_ancestors_of u →
          srBlocked active c0 p.1 p.2 u)
    ∨ (∃ p ∈ orderedPairs d1s, ∃ u ∈ cid.utility_nodes, p.2 ∈ cid.get_ancestors_of u
        ∧ srActive active c0 p.1 p.2 u
        ∧ cid.sr_loop_d1 active d1s = ([recallWarning p.2 p.1 u], Except.ok false)) := by
  intro d1s
  induction d1s with
  | nil => intro _; exact Or.inl ⟨rfl, by simp [orderedPairs]⟩
  | cons d1 rest ih =>
    intro hpi
    have hd1 : d1 ≠ "pi" := hpi d1 (List.mem_cons_self d1 rest)
    have hred : cid.sr_loop_d1 active (d1 :: rest) =
        M.bind (cid.sr_loop_d2 active d1 rest)
          (fun b => if b then cid.sr_loop_d1 active rest else M.pure false) := rfl
    rcases sr_loop_d2_cases active cid c0 d1 h1 h2 hd1 rest with
      ⟨hpure, hall⟩ | ⟨d2, hm, u, hu, hcond, hact, hres⟩
    · rcases ih (fun d hd => hpi d (List.mem_cons_of_mem d1 hd)) with
        ⟨hp2, hall2⟩ | ⟨p, hp, u', hu', hcond', hact', hres'⟩
      · refine Or.inl ⟨by rw [hred, hpure, M.bind_pure, if_pos rfl, hp2], ?_⟩
        intro p hp u hu hc
        rcases (orderedPairs_mem_cons d1 rest p).mp hp with ⟨y, hy, rfl⟩ | hp
        · exact hall y hy u hu hc
        · exact hall2 p hp u hu hc
      · refine Or.inr ⟨p, (orderedPairs_mem_cons d1 rest p).mpr (Or.inr hp), u', hu',
          hcond', hact', ?_⟩
        rw [hred, hpure, M.bind_pure, if_pos rfl, hres']
    · refine Or.inr ⟨(d1, d2), (orderedPairs_mem_cons d1 rest (d1, d2)).mpr
        (Or.inl ⟨d2, hm, rfl⟩), u, hu, hcond, hact, ?_⟩
      rw [hred, hres]
      simp [M.bind, M.pure]

theorem orderedPairs_fst_mem {α : Type} : ∀ (l : List α) (p : α × α),
    p ∈ orderedPairs l → p.1 ∈ l := by
  intro l
  induction l with
  | nil => intro p hp; cases hp
  | cons x xs ih =>
    intro p hp
    rcases (orderedPairs_mem_cons x xs p).mp hp with ⟨y, hy, rfl⟩ | hp
    · exact List.mem_cons_self x xs
    · exact List.mem_cons_of_mem x (ih p hp)

/-- C2.  `check_sufficient_recall` returns `true` (with no warning, and with
`self` unchanged) exactly when for every ordered pair `(d1, d2)` of decisions
with `d1` strictly before `d2` in the topological decision ordering and every
utility node `u` with `d2` among its ancestors, conditioning on
`parents(d2) ++ [d2]` blocks every active trail from the fresh marker `pi`
(attached by an edge into `d1` on a copy) to `u`; and whenever it returns
`false` it has logged exactly one warning — naming the violating `d2`, `d1`
and `u` — and stopped at that first active trail. -/
theorem check_sufficient_recall_iff (active : ActiveTrail) (cid c0 : CID)
    (h1 : cid.copy = M.pure c0) (h2 : "pi" ∉ c0.nodes) (h3 : "pi" ∉ cid.nodes) :
    (cid.check_sufficient_recall active = M.pure (cid, true) ↔
      ∀ p ∈ orderedPairs (cid.get_valid_order cid.decision_nodes),
        ∀ u ∈ cid.utility_nodes, p.2 ∈ cid.get_ancestors_of u →
          srBlocked active c0 p.1 p.2 u)
    ∧ (∀ w c1, cid.check_sufficient_recall active = (w, Except.ok (c1, false)) →
        ∃ p ∈ orderedPairs (cid.get_valid_order cid.decision_nodes),
          ∃ u ∈ cid.utility_nodes, p.2 ∈ cid.get_ancestors_of u
          ∧ srActive active c0 p.1 p.2 u
          ∧ w = [recallWarning p.2 p.1 u]) := by
  have hpi : ∀ d ∈ cid.get_valid_order cid.decision_nodes, d ≠ "pi" := by
    intro d hd hcon
    exact h3 (hcon ▸ get_valid_order_subset_nodes cid _ d hd)
  have hcheckdef : cid.check_sufficient_recall active =
      M.bind (cid.sr_loop_d1 active (cid.get_valid_order cid.decision_nodes))
        (fun b => M.pure (cid, b)) := rfl
  rcases sr_loop_d1_cases active cid c0 h1 h2 _ hpi with
    ⟨hpure, hall⟩ | ⟨p, hp, u, hu, hcond, hact, hres⟩
  · have hval : cid.check_sufficient_recall active = M.pure (cid, true) := by
      rw [hcheckdef, hpure, M.bind_pure]
    refine ⟨⟨fun _ => hall, fun _ => hval⟩, ?_⟩
    intro w c1 hw
    rw [hval] at hw
    exfalso
    have hcontra := congrArg Prod.snd hw.symm
    simp [M.pure] at hcontra
  · have hval : cid.check_sufficient_recall active =
        ([recallWarning p.2 p.1 u], Except.ok (cid, false)) := by
      rw [hcheckdef, hres]
      simp [M.bind, M.pure]
    have hd1 : p.1 ≠ "pi" := hpi p.1 (orderedPairs_fst_mem _ p hp)
    obtain ⟨cwp0, hcwp0⟩ := pi_add_edge_ok c0 p.1 h2 hd1
    constructor
    · constructor
      · intro hchk
        rw [hval] at hchk
        exfalso
        have hcontra := congrArg Prod.snd hchk
        simp [M.pure] at hcontra
      · intro hRHS
        exfalso
        have hb := (srBlocked_iff active c0 cwp0 p.1 p.2 u hcwp0).mp (hRHS p hp u hu hcond)
        have ha := (srActive_iff active c0 cwp0 p.1 p.2 u hcwp0).mp hact
        simp [hb] at ha
    · intro w c1 hw
      refine ⟨p, hp, u, hu, hcond, hact, ?_⟩
      have := congrArg Prod.fst (hval.symm.trans hw)
      simpa using this.symm

/-- A d-separation oracle declaring every trail inactive. -/
def falseTrail : ActiveTrail := fun _ _ _ _ => false

theorem check_sufficient_recall_iff_witness :
    cidC1.copy = M.pure cidC1
    ∧ "pi" ∉ cidC1.nodes
    ∧ cidC1.check_sufficient_recall falseTrail = M.pure (cidC1, true)
    ∧ ∀ p ∈ orderedPairs (cidC1.get_valid_order cidC1.decision_nodes),
        ∀ u ∈ cidC1.utility_nodes, p.2 ∈ cidC1.get_ancestors_of u →
          srBlocked falseTrail cidC1 p.1 p.2 u := by
  refine ⟨by with_unfolding_all rfl, by decide, by with_unfolding_all rfl, ?_⟩
  exact (check_sufficient_recall_iff falseTrail cidC1 cidC1 (by with_unfolding_all rfl)
    (by decide) (by decide)).1.mp (by with_unfolding_all rfl)
